import Mathlib

set_option maxRecDepth 4096

/-!
Verification of the route-dispatch and body-decoding layer of the local
HTTP(S) bridge server in `appserver.py`.

Embedding conventions:
* Python `bytes` values are `List Nat` (one entry per byte; every byte the
  program manipulates is < 256).
* Python `str` values are `List Char`.
* Fallible Python code (code that can raise) returns `Except PyExc _`; the
  exception constructors mirror the Python exception classes that can occur.
* Python `dict` is an association list with in-place update (`dictInsert`),
  matching CPython's insertion-order semantics for the operations the
  program uses (item assignment and lookup).
-/

/-- Python `bytes` modelled as a list of byte values. -/
abbrev Bytes := List Nat

/-- The byte list of an ASCII string literal (models Python `b"..."`). -/
def strB (s : String) : Bytes := s.toList.map Char.toNat

/-- Index of the first occurrence of `needle` in `hay`; `none` plays the
role of Python's `-1` result for `bytes.find`. -/
def findSub {α : Type} [DecidableEq α] : List α → List α → Option Nat
  | [], needle => if needle = [] then some 0 else none
  | a :: t, needle =>
      if needle.isPrefixOf (a :: t) then some 0 else (findSub t needle).map (· + 1)

theorem findSub_some_le {α : Type} [DecidableEq α] {hay needle : List α} {i : Nat}
    (h : findSub hay needle = some i) : i + needle.length ≤ hay.length := by
  induction hay generalizing i with
  | nil =>
      simp only [findSub] at h
      split at h
      · next hn => subst hn; simp at h; subst h; simp
      · simp at h
  | cons a t ih =>
      simp only [findSub] at h
      split at h
      · next hp =>
          simp at h; subst h
          have hle := (List.isPrefixOf_iff_prefix.mp hp).length_le
          simpa using hle
      · cases hft : findSub t needle with
        | none => rw [hft] at h; simp at h
        | some j =>
            rw [hft] at h; simp at h
            have := ih hft
            simp only [List.length_cons]
            omega

theorem findSub_some_drop {α : Type} [DecidableEq α] {hay needle : List α} {i : Nat}
    (h : findSub hay needle = some i) : needle <+: hay.drop i := by
  induction hay generalizing i with
  | nil =>
      simp only [findSub] at h
      split at h
      · next hn => subst hn; simp at h; subst h; simp
      · simp at h
  | cons a t ih =>
      simp only [findSub] at h
      split at h
      · next hp =>
          simp at h; subst h
          simpa using List.isPrefixOf_iff_prefix.mp hp
      · cases hft : findSub t needle with
        | none => rw [hft] at h; simp at h
        | some j =>
            rw [hft] at h; simp at h; subst h
            simpa using ih hft

theorem findSub_min {α : Type} [DecidableEq α] {hay needle : List α} {i : Nat}
    (h : findSub hay needle = some i) : ∀ p, p < i → ¬ needle <+: hay.drop p := by
  induction hay generalizing i with
  | nil =>
      simp only [findSub] at h
      split at h
      · next hn => simp at h; subst h; intro p hp; omega
      · simp at h
  | cons a t ih =>
      simp only [findSub] at h
      split at h
      · simp at h; subst h; intro p hp; omega
      · next hnp =>
          cases hft : findSub t needle with
          | none => rw [hft] at h; simp at h
          | some j =>
              rw [hft] at h; simp at h; subst h
              intro p hp
              cases p with
              | zero =>
                  intro hpre
                  exact hnp (List.isPrefixOf_iff_prefix.mpr (by simpa using hpre))
              | succ q =>
                  simpa using ih hft q (by omega)

theorem findSub_eq_some {α : Type} [DecidableEq α] {hay needle : List α} {n : Nat}
    (hpre : needle <+: hay.drop n) (hmin : ∀ p, p < n → ¬ needle <+: hay.drop p) :
    findSub hay needle = some n := by
  induction hay generalizing n with
  | nil =>
      have hn0 : n = 0 := by
        by_contra hne
        exact hmin 0 (by omega) (by simpa using hpre)
      subst hn0
      have he : needle = [] := List.prefix_nil.mp (by simpa using hpre)
      simp [findSub, he]
  | cons a t ih =>
      cases n with
      | zero =>
          simp only [findSub]
          rw [if_pos (List.isPrefixOf_iff_prefix.mpr (by simpa using hpre))]
      | succ m =>
          have hnp : ¬ needle.isPrefixOf (a :: t) = true := by
            intro hb
            exact hmin 0 (by omega) (by simpa using List.isPrefixOf_iff_prefix.mp hb)
          simp only [findSub, if_neg hnp]
          rw [ih (by simpa using hpre) (fun p hp => by simpa using hmin (p + 1) (by omega))]
          rfl

theorem findSub_eq_none {α : Type} [DecidableEq α] {hay needle : List α}
    (h : ∀ p, ¬ needle <+: hay.drop p) : findSub hay needle = none := by
  induction hay with
  | nil =>
      have hne : needle ≠ [] := by
        intro he; exact h 0 (by simp [he])
      simp [findSub, hne]
  | cons a t ih =>
      have h0 : ¬ needle.isPrefixOf (a :: t) = true := fun hb =>
        h 0 (by simpa using List.isPrefixOf_iff_prefix.mp hb)
      simp only [findSub, if_neg h0]
      rw [ih (fun p => by simpa using h (p + 1))]
      rfl

/-- Python `s.split(sep)` for a non-empty separator (splitting on
non-overlapping occurrences, left to right).  Python raises `ValueError`
on an empty separator; the only caller checks for that case first, so the
`sep = []` branch here is never reached by the embedded program. -/
def pySplit {α : Type} [DecidableEq α] (s sep : List α) : List (List α) :=
  if hsep : sep = [] then [s]
  else
    match hfs : findSub s sep with
    | none => [s]
    | some i => s.take i :: pySplit (s.drop (i + sep.length)) sep
termination_by s.length
decreasing_by
  have h1 := findSub_some_le hfs
  have h2 : 0 < sep.length := List.length_pos.mpr hsep
  have h3 : s.length - (i + sep.length) < s.length := by omega
  simpa using h3

theorem pySplit_of_none {α : Type} [DecidableEq α] {s sep : List α}
    (hfs : findSub s sep = none) : pySplit s sep = [s] := by
  rw [pySplit]
  split
  · rfl
  · split
    · rfl
    · next i h => rw [hfs] at h; cases h

theorem pySplit_of_some {α : Type} [DecidableEq α] {s sep : List α} {i : Nat}
    (hsep : sep ≠ []) (hfs : findSub s sep = some i) :
    pySplit s sep = s.take i :: pySplit (s.drop (i + sep.length)) sep := by
  rw [pySplit]
  split
  · exact absurd (by assumption) hsep
  · split
    · next h => rw [hfs] at h; cases h
    · next j h => rw [hfs] at h; injection h with h; subst h; rfl

/-- Python `s.split(sep, maxsplit=1)` in the shape the program consumes it:
`some (before, after)` when the separator occurs (a two-element result),
`none` when it does not (a one-element result, on which the program's
two-value unpacking raises `ValueError`). -/
def splitOnce {α : Type} [DecidableEq α] (s sep : List α) : Option (List α × List α) :=
  (findSub s sep).map fun i => (s.take i, s.drop (i + sep.length))

/-- Python slice `s[:-n]` for `n ≥ 1` (empty when `n ≥ len s`). -/
def dropLastN {α : Type} (n : Nat) (s : List α) : List α := s.take (s.length - n)

theorem dropLastN_append {α : Type} {s t : List α} {n : Nat} (h : t.length = n) :
    dropLastN n (s ++ t) = s := by
  subst h
  simp [dropLastN, List.take_left]

/-- Python `dict` item assignment `d[k] = v`: an existing key keeps its
position and gets the new value, a new key is appended. -/
def dictInsert {κ β : Type} [DecidableEq κ] : List (κ × β) → κ → β → List (κ × β)
  | [], k, v => [(k, v)]
  | (k', v') :: d, k, v =>
      if k' = k then (k', v) :: d else (k', v') :: dictInsert d k v

/-- Python `dict` lookup `d[k]`, as an option (`none` models `KeyError`). -/
def lookupD {κ β : Type} [DecidableEq κ] : List (κ × β) → κ → Option β
  | [], _ => none
  | (k', v') :: d, k => if k' = k then some v' else lookupD d k

/-- The UTF-8 encoding of one character (Python `str.encode("utf-8")`,
per code point; Lean `Char` excludes surrogates, as Python `str` does for
any text that can be UTF-8 encoded). -/
def utf8EncodeChar (c : Char) : Bytes :=
  let n := c.toNat
  if n < 0x80 then [n]
  else if n < 0x800 then [0xC0 + n / 0x40, 0x80 + n % 0x40]
  else if n < 0x10000 then
    [0xE0 + n / 0x1000, 0x80 + n / 0x40 % 0x40, 0x80 + n % 0x40]
  else
    [0xF0 + n / 0x40000, 0x80 + n / 0x1000 % 0x40, 0x80 + n / 0x40 % 0x40, 0x80 + n % 0x40]

/-- UTF-8 encoding of a string (Python `str.encode("utf-8")`). -/
def utf8Encode (s : List Char) : Bytes := (s.map utf8EncodeChar).flatten

/-- Decode one UTF-8 encoded code point from the head of a byte list,
rejecting stray continuation bytes, truncated sequences, overlong forms,
surrogates and out-of-range code points (as Python's strict UTF-8 codec
does). -/
def utf8DecodeOne : Bytes → Option (Nat × Bytes)
  | [] => none
  | b :: r =>
    if b < 0x80 then some (b, r)
    else if b < 0xC2 then none
    else if b < 0xE0 then
      match r with
      | b1 :: r1 =>
          if 0x80 ≤ b1 ∧ b1 < 0xC0 then some ((b - 0xC0) * 0x40 + (b1 - 0x80), r1) else none
      | [] => none
    else if b < 0xF0 then
      match r with
      | b1 :: b2 :: r2 =>
          if (0x80 ≤ b1 ∧ b1 < 0xC0) ∧ (0x80 ≤ b2 ∧ b2 < 0xC0) then
            let n := (b - 0xE0) * 0x1000 + (b1 - 0x80) * 0x40 + (b2 - 0x80)
            if n < 0x800 ∨ (0xD800 ≤ n ∧ n < 0xE000) then none
            else some (n, r2)
          else none
      | _ => none
    else if b < 0xF5 then
      match r with
      | b1 :: b2 :: b3 :: r3 =>
          if (0x80 ≤ b1 ∧ b1 < 0xC0) ∧ (0x80 ≤ b2 ∧ b2 < 0xC0) ∧ (0x80 ≤ b3 ∧ b3 < 0xC0) then
            let n := (b - 0xF0) * 0x40000 + (b1 - 0x80) * 0x1000
                       + (b2 - 0x80) * 0x40 + (b3 - 0x80)
            if n < 0x10000 ∨ 0x110000 ≤ n then none
            else some (n, r3)
          else none
      | _ => none
    else none

theorem utf8DecodeOne_length {l rest : Bytes} {n : Nat}
    (h : utf8DecodeOne l = some (n, rest)) : rest.length < l.length := by
  cases l with
  | nil => simp [utf8DecodeOne] at h
  | cons b r =>
      simp only [utf8DecodeOne] at h
      repeat' split at h
      all_goals try cases h
      all_goals simp only [List.length_cons]
      all_goals omega

/-- Strict UTF-8 decoding (Python `bytes.decode("utf-8")`); `none` models
a raised `UnicodeDecodeError`. -/
def utf8Decode : Bytes → Option (List Char)
  | [] => some []
  | b :: r =>
    match h : utf8DecodeOne (b :: r) with
    | none => none
    | some (n, rest) => (utf8Decode rest).map (fun cs => Char.ofNat n :: cs)
termination_by l => l.length
decreasing_by exact utf8DecodeOne_length h

theorem utf8DecodeOne_ascii {b : Nat} (r : Bytes) (hb : b < 0x80) :
    utf8DecodeOne (b :: r) = some (b, r) := by
  simp only [utf8DecodeOne]
  rw [if_pos hb]

theorem utf8Decode_cons_of_one {b n : Nat} {r rest : Bytes}
    (h : utf8DecodeOne (b :: r) = some (n, rest)) :
    utf8Decode (b :: r) = (utf8Decode rest).map (fun cs => Char.ofNat n :: cs) := by
  simp only [utf8Decode]
  split
  · next heq => rw [h] at heq; cases heq
  · next n2 rest2 heq =>
      rw [h] at heq
      injection heq with h2
      injection h2 with h3 h4
      subst h3; subst h4; rfl

theorem utf8Decode_cons_none {b : Nat} {r : Bytes}
    (h : utf8DecodeOne (b :: r) = none) : utf8Decode (b :: r) = none := by
  simp only [utf8Decode]
  split
  · rfl
  · next n2 rest2 heq => rw [h] at heq; cases heq

theorem utf8EncodeChar_ascii {c : Char} (h : c.toNat < 128) :
    utf8EncodeChar c = [c.toNat] := by
  unfold utf8EncodeChar
  rw [if_pos h]

theorem utf8Encode_cons {c : Char} {t : List Char} :
    utf8Encode (c :: t) = utf8EncodeChar c ++ utf8Encode t := by
  simp [utf8Encode]

theorem utf8Encode_ascii_map {s : List Char} (h : ∀ c ∈ s, c.toNat < 128) :
    utf8Encode s = s.map Char.toNat := by
  induction s with
  | nil => rfl
  | cons c t ih =>
      rw [utf8Encode_cons, utf8EncodeChar_ascii (h c (by simp)),
        ih (fun x hx => h x (by simp [hx]))]
      rfl

theorem utf8Decode_encode_ascii {s : List Char} (h : ∀ c ∈ s, c.toNat < 128) :
    utf8Decode (utf8Encode s) = some s := by
  induction s with
  | nil => simp [utf8Encode, utf8Decode]
  | cons c t ih =>
      have hc := h c (by simp)
      rw [utf8Encode_cons, utf8EncodeChar_ascii hc, List.singleton_append,
        utf8Decode_cons_of_one (utf8DecodeOne_ascii _ hc),
        ih (fun x hx => h x (by simp [hx]))]
      simp

/-- The Python exceptions the embedded code paths can raise. -/
inductive PyExc where
  | keyError (key : List Char)
  | valueError (msg : List Char)
  | typeError
  | unicodeDecodeError
  | jsonDecodeError
  | unboundLocalError
  | indexError
  | handlerError (msg : List Char)
deriving DecidableEq

/-- The byte string `b"Content-Disposition: form-data;"` that
`decode_multipart` tests with `startswith`. -/
def contentDispositionFormData : Bytes := strB "Content-Disposition: form-data;"

/-- The literal bytes `name="` of the regex `b'name="([^"]*)"'`. -/
def nameEq : Bytes := strB "name=\""

/-- Models `re.search(b'name="([^"]*)"', meta)`, returning the capture of
the leftmost match.  The scan returns the capture of the first position
where `name="` matches and a closing quote follows.  When `name="`
matches but no quote ever follows it, no later position can produce a
full match either (a later `name="` occurrence would put a quote after
the current opening quote), so answering `none` right away agrees with
the regex's leftmost-match semantics. -/
def reSearchName : Bytes → Option Bytes
  | [] => none
  | b :: t =>
      if nameEq.isPrefixOf (b :: t) then
        let after := (b :: t).drop 6
        if (after.dropWhile (fun x => x ≠ 34)).isEmpty then none
        else some (after.takeWhile (fun x => x ≠ 34))
      else reSearchName t

/-- One iteration of the `for part in mp` loop of `decode_multipart`:
`meta, content = part[:-2].split(b"\r\n\r\n", maxsplit=1)` (raising
`ValueError` when the blank line is absent), the `startswith` test, the
regex capture (`None[1]` raising `TypeError`), `key.decode("utf-8")`, and
the dict store; non-form-data dispositions fall through to `pass`. -/
def mpPart (data : List (List Char × Bytes)) (part : Bytes) :
    Except PyExc (List (List Char × Bytes)) :=
  match splitOnce (dropLastN 2 part) (strB "\r\n\r\n") with
  | none => .error (.valueError "not enough values to unpack".toList)
  | some (meta, content) =>
      if contentDispositionFormData.isPrefixOf meta then
        match reSearchName meta with
        | none => .error .typeError
        | some nameBytes =>
            match utf8Decode nameBytes with
            | none => .error .unicodeDecodeError
            | some key => .ok (dictInsert data key content)
      else .ok data

/-- The in-place update `mp[-1] = mp[-1][:-(seplen + 2)]`. -/
def trimLast (seplen : Nat) : List Bytes → List Bytes
  | [] => []
  | [p] => [dropLastN (seplen + 2) p]
  | p :: q :: r => p :: trimLast seplen (q :: r)

/-- `MyHandler.decode_multipart` from `appserver.py`: `seplen` is the
index of the first CRLF plus 2 (Python's `find` returns `-1` when CRLF is
absent, hence the `none ↦ 1` arm), the body is split on its own leading
`seplen`-byte slice (Python raises `ValueError` when that slice is empty,
i.e. on an empty body), the empty preamble is dropped (`[1:]`), `mp[-1]`
raises `IndexError` on an empty list, the end marker is stripped from the
last segment, and each part is processed by `mpPart` into the dict. -/
def decode_multipart (mp : Bytes) : Except PyExc (List (List Char × Bytes)) :=
  let seplen : Nat :=
    match findSub mp (strB "\r\n") with
    | some i => i + 2
    | none => 1
  let sep := mp.take seplen
  if sep = [] then .error (.valueError "empty separator".toList)
  else
    match (pySplit mp sep).drop 1 with
    | [] => .error .indexError
    | p :: parts => (trimLast seplen (p :: parts)).foldlM mpPart []

/-- A part of a multipart/form-data body as a conforming encoder builds
it: a named form-data field, or a part with some other disposition
header block. -/
inductive MPart where
  | field (name : List Char) (content : Bytes)
  | other (header : Bytes) (content : Bytes)
deriving DecidableEq

/-- The fixed header-block bytes up to and including the opening quote of
the name attribute: `Content-Disposition: form-data; name="`. -/
def cdNameOpen : Bytes := strB "Content-Disposition: form-data; name=\""

/-- The serialized bytes of one part, from just after its boundary line
to just before the next boundary: header block, blank line, content,
trailing CRLF. -/
def innerBytes : MPart → Bytes
  | .field n c => cdNameOpen ++ utf8Encode n ++ [34, 13, 10, 13, 10] ++ c ++ [13, 10]
  | .other h c => h ++ [13, 10, 13, 10] ++ c ++ [13, 10]

/-- The boundary separator line `--B\r\n` (exactly the slice
`mp[:seplen]` that `decode_multipart` computes). -/
def sepBytes (B : Bytes) : Bytes := [45, 45] ++ B ++ [13, 10]

/-- The end marker `--B--\r\n`. -/
def endBytes (B : Bytes) : Bytes := [45, 45] ++ B ++ [45, 45, 13, 10]

/-- Modelled from the spec: a conforming multipart/form-data encoder with
boundary `B` — each part is introduced by its boundary line, and the body
is closed by the end marker. -/
def encodeMultipart (B : Bytes) : List MPart → Bytes
  | [] => endBytes B
  | p :: parts => sepBytes B ++ innerBytes p ++ encodeMultipart B parts

/-- The separator does not occur inside `inner ++ sep` before the final,
intended position, so the split isolates this part exactly. -/
def SepFree (B : Bytes) (inner : Bytes) : Prop :=
  ∀ p, p < inner.length → ¬ sepBytes B <+: (inner ++ sepBytes B).drop p

/-- The separator does not occur at all in `inner ++ endBytes B` (the
final segment of the split). -/
def SepFreeEnd (B : Bytes) (inner : Bytes) : Prop :=
  ∀ p, p < (inner ++ endBytes B).length → ¬ sepBytes B <+: (inner ++ endBytes B).drop p

/-- What it takes for one part to be produced by a conforming encoder
with boundary `B`: field names are plain ASCII without quote or CR/LF;
foreign header blocks contain no CR/LF and do not carry the form-data
disposition; and the chosen boundary never occurs inside the encoded
part (the RFC obligation on boundary choice). -/
def PartOk (B : Bytes) : MPart → Prop
  | .field n c =>
      (∀ ch ∈ n, ch.toNat < 128 ∧ ch ≠ '"' ∧ ch ≠ '\r' ∧ ch ≠ '\n')
        ∧ SepFree B (innerBytes (.field n c)) ∧ SepFreeEnd B (innerBytes (.field n c))
  | .other h c =>
      (∀ b ∈ h, b ≠ 13 ∧ b ≠ 10)
        ∧ ¬ contentDispositionFormData.isPrefixOf h = true
        ∧ SepFree B (innerBytes (.other h c)) ∧ SepFreeEnd B (innerBytes (.other h c))

instance (B : Bytes) (p : MPart) : Decidable (PartOk B p) := by
  cases p <;> (unfold PartOk; unfold SepFree SepFreeEnd; infer_instance)

/-- Modelled from the spec: the "conforming encoder" side conditions — an
RFC-style boundary (non-empty, free of CR and LF) that never occurs
inside any encoded part, and at least one part. -/
def Conforming (B : Bytes) (parts : List MPart) : Prop :=
  B ≠ [] ∧ (∀ b ∈ B, b ≠ 13 ∧ b ≠ 10) ∧ parts ≠ [] ∧ ∀ p ∈ parts, PartOk B p

instance (B : Bytes) (parts : List MPart) : Decidable (Conforming B parts) := by
  unfold Conforming; infer_instance

theorem prefix_append_left {α : Type} {l x y : List α} (hle : l.length ≤ x.length)
    (h : l <+: x ++ y) : l <+: x := by
  rw [List.prefix_iff_eq_take] at h ⊢
  rw [List.take_append_eq_append_take, Nat.sub_eq_zero_of_le hle,
    List.take_zero, List.append_nil] at h
  exact h

theorem mem_of_cons_prefix_drop {α : Type} {a : α} {s l r : List α} {p : Nat}
    (hp : p < l.length) (h : (a :: s) <+: (l ++ r).drop p) : a ∈ l := by
  rw [List.drop_append_eq_append_drop, Nat.sub_eq_zero_of_le (le_of_lt hp),
    List.drop_zero, List.drop_eq_getElem_cons hp, List.cons_append,
    List.cons_prefix_cons] at h
  exact h.1 ▸ List.getElem_mem hp

theorem not_prefix_drop_of_ge {α : Type} {sep l : List α} {p : Nat}
    (hsep : sep ≠ []) (hge : l.length ≤ p) : ¬ sep <+: l.drop p := by
  rw [List.drop_eq_nil_of_le hge]
  intro h
  exact hsep (List.prefix_nil.mp h)

theorem takeWhile_append_stop {α : Type} {l : List α} {a : α} {r : List α} {f : α → Bool}
    (hl : ∀ x ∈ l, f x = true) (ha : f a = false) :
    (l ++ a :: r).takeWhile f = l ∧ (l ++ a :: r).dropWhile f = a :: r := by
  induction l with
  | nil => simp [List.takeWhile, List.dropWhile, ha]
  | cons x t ih =>
      have hx := hl x (by simp)
      have := ih (fun y hy => hl y (by simp [hy]))
      simp [List.takeWhile, List.dropWhile, hx, this.1, this.2]

/-- The segments produced by the split in `decode_multipart` after the
empty preamble is dropped: one per part, the last one still carrying the
end marker. -/
def expectedSegs (B : Bytes) : List MPart → List Bytes
  | [] => []
  | [p] => [innerBytes p ++ endBytes B]
  | p :: q :: r => innerBytes p :: expectedSegs B (q :: r)

theorem sepBytes_ne_nil (B : Bytes) : sepBytes B ≠ [] := by simp [sepBytes]

theorem sepBytes_length (B : Bytes) : (sepBytes B).length = B.length + 4 := by
  simp [sepBytes]

theorem endBytes_length (B : Bytes) : (endBytes B).length = B.length + 6 := by
  simp [endBytes]

theorem strB_crlf : strB "\r\n" = [13, 10] := rfl

theorem findSub_crlf_body {B tail : Bytes} (hB : ∀ b ∈ B, b ≠ 13 ∧ b ≠ 10) :
    findSub (sepBytes B ++ tail) (strB "\r\n") = some (B.length + 2) := by
  rw [strB_crlf]
  have hgrp : sepBytes B ++ tail = ([45, 45] ++ B) ++ ([13, 10] ++ tail) := by
    simp [sepBytes, List.append_assoc]
  rw [hgrp]
  apply findSub_eq_some
  · rw [List.drop_left' (by simp)]
    exact List.prefix_append _ _
  · intro p hp hpre
    have hmem : (13 : Nat) ∈ [45, 45] ++ B :=
      mem_of_cons_prefix_drop (by simp; omega) hpre
    simp at hmem
    exact (hB 13 hmem).1 rfl

theorem pySplit_cons_sep {B tail : Bytes} :
    pySplit (sepBytes B ++ tail) (sepBytes B) = [] :: pySplit tail (sepBytes B) := by
  have h0 : findSub (sepBytes B ++ tail) (sepBytes B) = some 0 :=
    findSub_eq_some (by simpa using List.prefix_append _ _) (fun p hp => by omega)
  rw [pySplit_of_some (sepBytes_ne_nil B) h0]
  simp [List.drop_left]

theorem pySplit_mid {B inner tail : Bytes} (hfree : SepFree B inner) :
    pySplit (inner ++ (sepBytes B ++ tail)) (sepBytes B)
      = inner :: pySplit tail (sepBytes B) := by
  have hfs : findSub (inner ++ (sepBytes B ++ tail)) (sepBytes B)
      = some inner.length := by
    apply findSub_eq_some
    · rw [List.drop_left]
      exact List.prefix_append _ _
    · intro p hp hpre
      apply hfree p hp
      rw [← List.append_assoc, List.drop_append_eq_append_drop,
        Nat.sub_eq_zero_of_le (by simp; omega), List.drop_zero] at hpre
      exact prefix_append_left (by simp [sepBytes_length]; omega) hpre
  rw [pySplit_of_some (sepBytes_ne_nil B) hfs, List.take_left]
  have hdrop : (inner ++ (sepBytes B ++ tail)).drop (inner.length + (sepBytes B).length)
      = tail := by
    rw [← List.append_assoc]
    exact List.drop_left' (by simp)
  rw [hdrop]

theorem pySplit_end {B inner : Bytes} (hfree : SepFreeEnd B inner) :
    pySplit (inner ++ endBytes B) (sepBytes B) = [inner ++ endBytes B] := by
  apply pySplit_of_none
  apply findSub_eq_none
  intro p
  by_cases hp : p < (inner ++ endBytes B).length
  · exact hfree p hp
  · exact not_prefix_drop_of_ge (sepBytes_ne_nil B) (by omega)

theorem PartOk.sepFree {B : Bytes} {p : MPart} (h : PartOk B p) :
    SepFree B (innerBytes p) := by
  cases p <;> (unfold PartOk at h; tauto)

theorem PartOk.sepFreeEnd {B : Bytes} {p : MPart} (h : PartOk B p) :
    SepFreeEnd B (innerBytes p) := by
  cases p <;> (unfold PartOk at h; tauto)

theorem pySplit_inner_encode {B : Bytes} :
    ∀ (parts : List MPart) (p : MPart), PartOk B p → (∀ q ∈ parts, PartOk B q) →
      pySplit (innerBytes p ++ encodeMultipart B parts) (sepBytes B)
        = expectedSegs B (p :: parts) := by
  intro parts
  induction parts with
  | nil =>
      intro p hp _
      show pySplit (innerBytes p ++ endBytes B) _ = _
      rw [pySplit_end hp.sepFreeEnd]
      rfl
  | cons q rest ih =>
      intro p hp hq
      have hgrp : innerBytes p ++ encodeMultipart B (q :: rest)
          = innerBytes p ++ (sepBytes B ++ (innerBytes q ++ encodeMultipart B rest)) := by
        show innerBytes p ++ (sepBytes B ++ innerBytes q ++ encodeMultipart B rest) = _
        simp [List.append_assoc]
      rw [hgrp, pySplit_mid hp.sepFree,
        ih q (hq q (by simp)) (fun x hx => hq x (by simp [hx]))]
      rfl

theorem pySplit_encode {B : Bytes} {parts : List MPart} (hne : parts ≠ [])
    (hok : ∀ q ∈ parts, PartOk B q) :
    pySplit (encodeMultipart B parts) (sepBytes B) = [] :: expectedSegs B parts := by
  match parts, hne with
  | p :: rest, _ =>
      have hgrp : encodeMultipart B (p :: rest)
          = sepBytes B ++ (innerBytes p ++ encodeMultipart B rest) := by
        show sepBytes B ++ innerBytes p ++ encodeMultipart B rest = _
        simp [List.append_assoc]
      rw [hgrp, pySplit_cons_sep,
        pySplit_inner_encode rest p (hok p (by simp)) (fun q hq => hok q (by simp [hq]))]

theorem trimLast_expectedSegs {B : Bytes} {seplen : Nat} (hsep : seplen = B.length + 4) :
    ∀ parts : List MPart, parts ≠ [] →
      trimLast seplen (expectedSegs B parts) = parts.map innerBytes := by
  intro parts
  induction parts with
  | nil => intro h; exact absurd rfl h
  | cons p rest ih =>
      intro _
      cases rest with
      | nil =>
          show trimLast seplen [innerBytes p ++ endBytes B] = [innerBytes p]
          show [dropLastN (seplen + 2) (innerBytes p ++ endBytes B)] = _
          rw [dropLastN_append (by rw [endBytes_length]; omega)]
      | cons q rest2 =>
          show trimLast seplen (innerBytes p :: expectedSegs B (q :: rest2)) = _
          have hcons : ∃ a t, expectedSegs B (q :: rest2) = a :: t := by
            cases rest2 <;> exact ⟨_, _, rfl⟩
          obtain ⟨a, t, he⟩ := hcons
          rw [he]
          show innerBytes p :: trimLast seplen (a :: t) = _
          rw [← he, ih (by simp)]
          rfl

theorem nameEq_length : nameEq.length = 6 := rfl

theorem char_toNat_ne {c d : Char} (hne : c ≠ d) : c.toNat ≠ d.toNat := by
  intro h
  apply hne
  have h2 := congrArg Char.ofNat h
  rwa [Char.ofNat_toNat, Char.ofNat_toNat] at h2

theorem reSearchName_nameEq (rest : Bytes) :
    reSearchName (nameEq ++ rest)
      = (if (rest.dropWhile (fun x => x ≠ 34)).isEmpty then none
         else some (rest.takeWhile (fun x => x ≠ 34))) := by
  show reSearchName (110 :: 97 :: 109 :: 101 :: 61 :: 34 :: rest) = _
  simp only [reSearchName]
  simp [List.isPrefixOf]

theorem reSearchName_concat {pre rest : Bytes}
    (hlen : 6 ≤ pre.length)
    (hend : nameEq <+: pre.drop (pre.length - 6))
    (hmin : ∀ p, p < pre.length - 6 → ¬ nameEq <+: pre.drop p) :
    reSearchName (pre ++ rest)
      = (if (rest.dropWhile (fun x => x ≠ 34)).isEmpty then none
         else some (rest.takeWhile (fun x => x ≠ 34))) := by
  induction pre with
  | nil => simp at hlen
  | cons b pre2 ih =>
      by_cases h6 : pre2.length < 6
      · have hl : (b :: pre2).length = 6 := by simp at hlen ⊢; omega
        have h0 : (b :: pre2).length - 6 = 0 := by omega
        rw [h0, List.drop_zero] at hend
        have hpre_eq : b :: pre2 = nameEq :=
          (hend.eq_of_length (by rw [hl, nameEq_length])).symm
        rw [hpre_eq]
        exact reSearchName_nameEq rest
      · have hlen2 : (b :: pre2).length - 6 = (pre2.length - 6) + 1 := by
          simp; omega
        have h0 : ¬ nameEq <+: (b :: pre2) := by
          have := hmin 0 (by simp; omega)
          simpa using this
        have hb : ¬ nameEq.isPrefixOf ((b :: pre2) ++ rest) = true := by
          intro hbt
          exact h0 (prefix_append_left (by simp [nameEq_length]; omega)
            (List.isPrefixOf_iff_prefix.mp hbt))
        rw [List.cons_append]
        simp only [reSearchName]
        rw [if_neg (by simpa using hb)]
        apply ih (by simp at hlen ⊢; omega)
        · rw [hlen2] at hend
          simpa using hend
        · intro p hp
          have := hmin (p + 1) (by omega)
          simpa using this

theorem splitOnce_crlfcrlf {a c : Bytes} (ha : ∀ b ∈ a, b ≠ 13) :
    splitOnce (a ++ ([13, 10, 13, 10] ++ c)) (strB "\r\n\r\n") = some (a, c) := by
  have hsB : strB "\r\n\r\n" = [13, 10, 13, 10] := rfl
  rw [hsB]
  unfold splitOnce
  have hfs : findSub (a ++ ([13, 10, 13, 10] ++ c)) [13, 10, 13, 10] = some a.length := by
    apply findSub_eq_some
    · rw [List.drop_left]
      exact List.prefix_append _ _
    · intro p hp hpre
      exact ha 13 (mem_of_cons_prefix_drop hp hpre) rfl
  rw [hfs]
  simp only [Option.map_some']
  rw [List.take_left]
  have hdrop : (a ++ ([13, 10, 13, 10] ++ c)).drop (a.length + 4) = c := by
    rw [← List.append_assoc]
    exact List.drop_left' (by simp)
  have h4 : ([13, 10, 13, 10] : Bytes).length = 4 := rfl
  rw [h4, hdrop]

theorem cdNameOpen_no13 : ∀ b ∈ cdNameOpen, b ≠ 13 := by decide

theorem name_bytes_props {n : List Char}
    (hn : ∀ ch ∈ n, ch.toNat < 128 ∧ ch ≠ '"' ∧ ch ≠ '\r' ∧ ch ≠ '\n') :
    ∀ b ∈ utf8Encode n, b ≠ 34 ∧ b ≠ 13 ∧ b ≠ 10 := by
  intro b hb
  rw [utf8Encode_ascii_map (fun c hc => (hn c hc).1)] at hb
  simp only [List.mem_map] at hb
  obtain ⟨ch, hch, rfl⟩ := hb
  obtain ⟨h1, h2, h3, h4⟩ := hn ch hch
  exact ⟨char_toNat_ne h2, char_toNat_ne h3, char_toNat_ne h4⟩

theorem innerBytes_field_eq (n : List Char) (c : Bytes) :
    innerBytes (.field n c)
      = (cdNameOpen ++ utf8Encode n ++ [34] ++ ([13, 10, 13, 10] ++ c)) ++ [13, 10] := by
  show cdNameOpen ++ utf8Encode n ++ [34, 13, 10, 13, 10] ++ c ++ [13, 10] = _
  simp [List.append_assoc]

theorem reSearchName_meta {n : List Char}
    (hn : ∀ ch ∈ n, ch.toNat < 128 ∧ ch ≠ '"' ∧ ch ≠ '\r' ∧ ch ≠ '\n') :
    reSearchName (cdNameOpen ++ utf8Encode n ++ [34]) = some (utf8Encode n) := by
  have hbytes := name_bytes_props hn
  rw [List.append_assoc, reSearchName_concat (by decide) (by decide) (by decide)]
  have hstop := @takeWhile_append_stop Nat (utf8Encode n) 34 []
    (fun x => decide (x ≠ 34)) (fun x hx => by simp [(hbytes x hx).1]) (by simp)
  rw [hstop.2, hstop.1]
  simp [List.isEmpty]

theorem mpPart_field {data : List (List Char × Bytes)} {n : List Char} {c : Bytes}
    (hn : ∀ ch ∈ n, ch.toNat < 128 ∧ ch ≠ '"' ∧ ch ≠ '\r' ∧ ch ≠ '\n') :
    mpPart data (innerBytes (.field n c)) = .ok (dictInsert data n c) := by
  have hbytes := name_bytes_props hn
  have ha13 : ∀ b ∈ cdNameOpen ++ utf8Encode n ++ [34], b ≠ 13 := by
    intro b hb
    simp only [List.mem_append, List.mem_singleton] at hb
    rcases hb with (hb | hb) | hb
    · exact cdNameOpen_no13 b hb
    · exact (hbytes b hb).2.1
    · subst hb; decide
  have h1 : dropLastN 2 (innerBytes (.field n c))
      = (cdNameOpen ++ utf8Encode n ++ [34]) ++ ([13, 10, 13, 10] ++ c) := by
    rw [innerBytes_field_eq,
      dropLastN_append (show ([13, 10] : Bytes).length = 2 from rfl)]
  have h2 := @splitOnce_crlfcrlf _ c ha13
  have h3 : contentDispositionFormData.isPrefixOf (cdNameOpen ++ utf8Encode n ++ [34])
      = true := by
    apply List.isPrefixOf_iff_prefix.mpr
    have hp1 : contentDispositionFormData <+: cdNameOpen := by decide
    have hp2 : cdNameOpen <+: cdNameOpen ++ utf8Encode n ++ [34] := by
      rw [List.append_assoc]
      exact List.prefix_append _ _
    exact hp1.trans hp2
  have h4 := reSearchName_meta hn
  have h5 := utf8Decode_encode_ascii (fun ch hc => (hn ch hc).1)
  simp only [mpPart, h1, h2]
  rw [if_pos h3]
  simp only [h4, h5]

theorem mpPart_other {data : List (List Char × Bytes)} {h c : Bytes}
    (hh : ∀ b ∈ h, b ≠ 13 ∧ b ≠ 10)
    (hnd : ¬ contentDispositionFormData.isPrefixOf h = true) :
    mpPart data (innerBytes (.other h c)) = .ok data := by
  have h1 : dropLastN 2 (innerBytes (.other h c)) = h ++ ([13, 10, 13, 10] ++ c) := by
    show dropLastN 2 (h ++ [13, 10, 13, 10] ++ c ++ [13, 10]) = _
    have hg : h ++ [13, 10, 13, 10] ++ c ++ [13, 10]
        = (h ++ ([13, 10, 13, 10] ++ c)) ++ [13, 10] := by
      simp [List.append_assoc]
    rw [hg, dropLastN_append (show ([13, 10] : Bytes).length = 2 from rfl)]
  have h2 := @splitOnce_crlfcrlf _ c (fun b hb => (hh b hb).1)
  simp only [mpPart, h1, h2]
  rw [if_neg hnd]

/-- The effect of one encoded part on the accumulated dict: a form-data
field is stored (later writes win), any other part is dropped. -/
def mpStep (data : List (List Char × Bytes)) : MPart → List (List Char × Bytes)
  | .field n c => dictInsert data n c
  | .other _ _ => data

theorem PartOk.nameOk {B : Bytes} {n : List Char} {c : Bytes}
    (h : PartOk B (.field n c)) :
    ∀ ch ∈ n, ch.toNat < 128 ∧ ch ≠ '"' ∧ ch ≠ '\r' ∧ ch ≠ '\n' := by
  unfold PartOk at h
  exact h.1

theorem PartOk.headerOk {B : Bytes} {hd : Bytes} {c : Bytes}
    (hp : PartOk B (.other hd c)) :
    (∀ b ∈ hd, b ≠ 13 ∧ b ≠ 10) ∧ ¬ contentDispositionFormData.isPrefixOf hd = true := by
  unfold PartOk at hp
  exact ⟨hp.1, hp.2.1⟩

theorem foldlM_mpPart {B : Bytes} :
    ∀ (parts : List MPart) (data : List (List Char × Bytes)),
      (∀ q ∈ parts, PartOk B q) →
      List.foldlM mpPart data (parts.map innerBytes)
        = .ok (parts.foldl mpStep data) := by
  intro parts
  induction parts with
  | nil => intro data _; rfl
  | cons p rest ih =>
      intro data hok
      cases p with
      | field n c =>
          rw [List.map_cons, List.foldlM_cons,
            mpPart_field (PartOk.nameOk (hok (MPart.field n c) (by simp)))]
          show List.foldlM mpPart (dictInsert data n c) (rest.map innerBytes) = _
          rw [ih _ (fun q hq => hok q (by simp [hq]))]
          rfl
      | other hb cb =>
          have hh := PartOk.headerOk (hok (MPart.other hb cb) (by simp))
          rw [List.map_cons, List.foldlM_cons, mpPart_other hh.1 hh.2]
          show List.foldlM mpPart data (rest.map innerBytes) = _
          rw [ih _ (fun q hq => hok q (by simp [hq]))]
          rfl

/-- Engine theorem: on any conformingly encoded multipart body, the
program's decoder succeeds and returns exactly the left fold of the dict
updates over the parts. -/
theorem decode_multipart_encode {B : Bytes} {parts : List MPart}
    (hconf : Conforming B parts) :
    decode_multipart (encodeMultipart B parts) = .ok (parts.foldl mpStep []) := by
  obtain ⟨hBne, hB, hne, hok⟩ := hconf
  obtain ⟨p0, rest0, rfl⟩ : ∃ p0 rest0, parts = p0 :: rest0 := by
    cases parts with
    | nil => exact absurd rfl hne
    | cons a b => exact ⟨a, b, rfl⟩
  have hbody : encodeMultipart B (p0 :: rest0)
      = sepBytes B ++ (innerBytes p0 ++ encodeMultipart B rest0) := by
    show sepBytes B ++ innerBytes p0 ++ encodeMultipart B rest0 = _
    simp [List.append_assoc]
  have hfind : findSub (encodeMultipart B (p0 :: rest0)) (strB "\r\n")
      = some (B.length + 2) := by
    rw [hbody]
    exact findSub_crlf_body hB
  have htake : (encodeMultipart B (p0 :: rest0)).take (B.length + 2 + 2) = sepBytes B := by
    rw [hbody]
    exact List.take_left' (by rw [sepBytes_length])
  have hsplit : pySplit (encodeMultipart B (p0 :: rest0)) (sepBytes B)
      = [] :: expectedSegs B (p0 :: rest0) := pySplit_encode (by simp) hok
  have htrim : trimLast (B.length + 2 + 2) (expectedSegs B (p0 :: rest0))
      = (p0 :: rest0).map innerBytes :=
    trimLast_expectedSegs (by omega) _ (by simp)
  have hfold := foldlM_mpPart (p0 :: rest0) [] hok
  obtain ⟨a, t, hexp⟩ : ∃ a t, expectedSegs B (p0 :: rest0) = a :: t := by
    cases rest0 <;> exact ⟨_, _, rfl⟩
  simp only [decode_multipart, hfind]
  rw [htake, if_neg (sepBytes_ne_nil B), hsplit]
  simp only [List.drop_succ_cons, List.drop_zero]
  rw [hexp]
  show (trimLast (B.length + 2 + 2) (a :: t)).foldlM mpPart [] = _
  rw [← hexp, htrim, hfold]

theorem dictInsert_cons_eq {κ β : Type} [DecidableEq κ]
    (k1 : κ) (v1 : β) (rest : List (κ × β)) (k : κ) (v : β) :
    dictInsert ((k1, v1) :: rest) k v
      = if k1 = k then (k1, v) :: rest else (k1, v1) :: dictInsert rest k v := rfl

theorem lookupD_cons_eq {κ β : Type} [DecidableEq κ]
    (k1 : κ) (v1 : β) (rest : List (κ × β)) (k : κ) :
    lookupD ((k1, v1) :: rest) k = if k1 = k then some v1 else lookupD rest k := rfl

theorem lookupD_dictInsert_self {κ β : Type} [DecidableEq κ]
    (d : List (κ × β)) (k : κ) (v : β) :
    lookupD (dictInsert d k v) k = some v := by
  induction d with
  | nil => simp [dictInsert, lookupD]
  | cons kv d ih =>
      cases kv with
      | mk k1 v1 =>
          rw [dictInsert_cons_eq]
          by_cases h : k1 = k
          · rw [if_pos h, lookupD_cons_eq, if_pos h]
          · rw [if_neg h, lookupD_cons_eq, if_neg h]
            exact ih

theorem lookupD_dictInsert_ne {κ β : Type} [DecidableEq κ]
    (d : List (κ × β)) {k k' : κ} (v : β) (h : k' ≠ k) :
    lookupD (dictInsert d k v) k' = lookupD d k' := by
  have hne : ¬ k = k' := fun he => h he.symm
  induction d with
  | nil => simp [dictInsert, lookupD, hne]
  | cons kv d ih =>
      cases kv with
      | mk k1 v1 =>
          rw [dictInsert_cons_eq]
          by_cases h2 : k1 = k
          · rw [if_pos h2, lookupD_cons_eq, lookupD_cons_eq]
            rw [if_neg (h2 ▸ hne ∘ Eq.symm ∘ Eq.symm)]
            rw [if_neg (h2 ▸ hne ∘ Eq.symm ∘ Eq.symm)]
          · rw [if_neg h2, lookupD_cons_eq, lookupD_cons_eq]
            by_cases h3 : k1 = k'
            · rw [if_pos h3, if_pos h3]
            · rw [if_neg h3, if_neg h3]
              exact ih

theorem dictInsert_not_mem {κ β : Type} [DecidableEq κ] :
    ∀ {d : List (κ × β)} {k : κ}, k ∉ d.map Prod.fst → ∀ v : β,
      dictInsert d k v = d ++ [(k, v)] := by
  intro d
  induction d with
  | nil => intro k _ v; rfl
  | cons kv rest ih =>
      intro k h v
      cases kv with
      | mk k1 v1 =>
          simp only [List.map_cons, List.mem_cons] at h
          push_neg at h
          have hne : ¬ k1 = k := fun he => h.1 he.symm
          rw [dictInsert_cons_eq, if_neg hne, ih h.2 v]
          simp

theorem keys_dictInsert_mem {κ β : Type} [DecidableEq κ] :
    ∀ (d : List (κ × β)) (k k' : κ) (v : β),
      k' ∈ (dictInsert d k v).map Prod.fst ↔ k' = k ∨ k' ∈ d.map Prod.fst := by
  intro d
  induction d with
  | nil => intro k k' v; simp [dictInsert]
  | cons kv rest ih =>
      intro k k' v
      cases kv with
      | mk k1 v1 =>
          rw [dictInsert_cons_eq]
          by_cases h : k1 = k
          · subst h
            rw [if_pos rfl]
            simp only [List.map_cons, List.mem_cons]
            tauto
          · rw [if_neg h]
            simp only [List.map_cons, List.mem_cons, ih]
            tauto

theorem nodup_keys_dictInsert {κ β : Type} [DecidableEq κ] :
    ∀ {d : List (κ × β)}, (d.map Prod.fst).Nodup → ∀ (k : κ) (v : β),
      ((dictInsert d k v).map Prod.fst).Nodup := by
  intro d
  induction d with
  | nil => intro _ k v; simp [dictInsert]
  | cons kv rest ih =>
      intro h k v
      cases kv with
      | mk k1 v1 =>
          simp only [List.map_cons, List.nodup_cons] at h
          rw [dictInsert_cons_eq]
          by_cases h2 : k1 = k
          · subst h2
            rw [if_pos rfl]
            simp only [List.map_cons, List.nodup_cons]
            exact ⟨h.1, h.2⟩
          · rw [if_neg h2]
            simp only [List.map_cons, List.nodup_cons, keys_dictInsert_mem]
            refine ⟨fun hc => ?hc, ih h.2 k v⟩
            rcases hc with hc | hc
            · exact h2 hc
            · exact h.1 hc

/-- The form-data fields of a part list, in order. -/
def fieldsOf : List MPart → List (List Char × Bytes)
  | [] => []
  | .field n c :: rest => (n, c) :: fieldsOf rest
  | .other _ _ :: rest => fieldsOf rest

/-- The content of the last form-data field named `nm`, if any. -/
def lastNamed (nm : List Char) : List MPart → Option Bytes
  | [] => none
  | .field n c :: rest =>
      match lastNamed nm rest with
      | some v => some v
      | none => if n = nm then some c else none
  | .other _ _ :: rest => lastNamed nm rest

theorem fieldsOf_map_field (fields : List (List Char × Bytes)) :
    fieldsOf (fields.map fun nc => MPart.field nc.1 nc.2) = fields := by
  induction fields with
  | nil => rfl
  | cons nc rest ih => simp [fieldsOf, ih]

theorem foldl_mpStep_eq_fieldsOf :
    ∀ (parts : List MPart) (d : List (List Char × Bytes)),
      ((fieldsOf parts).map Prod.fst).Nodup →
      (∀ nm ∈ (fieldsOf parts).map Prod.fst, nm ∉ d.map Prod.fst) →
      parts.foldl mpStep d = d ++ fieldsOf parts := by
  intro parts
  induction parts with
  | nil => intro d _ _; simp [fieldsOf]
  | cons p rest ih =>
      intro d hnodup hfresh
      cases p with
      | field n c =>
          simp only [fieldsOf, List.map_cons, List.nodup_cons] at hnodup
          have hn : n ∉ d.map Prod.fst := hfresh n (by simp [fieldsOf])
          show rest.foldl mpStep (dictInsert d n c) = _
          rw [dictInsert_not_mem hn c, ih _ hnodup.2 ?fresh]
          · simp [fieldsOf]
          case fresh =>
            intro nm hnm
            simp only [List.map_append, List.mem_append, List.map_cons, List.map_nil,
              List.mem_singleton, not_or]
            exact ⟨hfresh nm (by simp [fieldsOf, hnm]), fun he => hnodup.1 (he ▸ hnm)⟩
      | other hb cb =>
          show rest.foldl mpStep d = _
          exact ih d hnodup hfresh

theorem lookupD_foldl_mpStep :
    ∀ (parts : List MPart) (d : List (List Char × Bytes)) (nm : List Char),
      lookupD (parts.foldl mpStep d) nm
        = match lastNamed nm parts with
          | some v => some v
          | none => lookupD d nm := by
  intro parts
  induction parts with
  | nil => intro d nm; rfl
  | cons p rest ih =>
      intro d nm
      cases p with
      | field n c =>
          show lookupD (rest.foldl mpStep (dictInsert d n c)) nm = _
          rw [ih]
          show _ = (match (match lastNamed nm rest with
                            | some v => some v
                            | none => if n = nm then some c else none) with
                    | some v => some v
                    | none => lookupD d nm)
          cases hl : lastNamed nm rest with
          | some v => rfl
          | none =>
              by_cases he : n = nm
              · subst he
                simp [lookupD_dictInsert_self]
              · simp [he, lookupD_dictInsert_ne _ _ (fun h2 => he h2.symm)]
      | other hb cb =>
          show lookupD (rest.foldl mpStep d) nm = _
          rw [ih]
          rfl

theorem nodup_keys_foldl_mpStep :
    ∀ (parts : List MPart) (d : List (List Char × Bytes)),
      (d.map Prod.fst).Nodup → (((parts.foldl mpStep d)).map Prod.fst).Nodup := by
  intro parts
  induction parts with
  | nil => intro d h; exact h
  | cons p rest ih =>
      intro d h
      cases p with
      | field n c => exact ih _ (nodup_keys_dictInsert h n c)
      | other hb cb => exact ih _ h

theorem mem_fieldsOf {parts : List MPart} {n : List Char} {c : Bytes}
    (h : MPart.field n c ∈ parts) : (n, c) ∈ fieldsOf parts := by
  induction parts with
  | nil => cases h
  | cons p rest ih =>
      rcases List.mem_cons.mp h with he | hm
      · rw [← he]; simp [fieldsOf]
      · cases p with
        | field n2 c2 => simp [fieldsOf, ih hm]
        | other hb cb => simp [fieldsOf, ih hm]

theorem lookupD_of_mem_nodup {κ β : Type} [DecidableEq κ] :
    ∀ {l : List (κ × β)} {k : κ} {v : β},
      (l.map Prod.fst).Nodup → (k, v) ∈ l → lookupD l k = some v := by
  intro l
  induction l with
  | nil => intro k v _ h; cases h
  | cons kv rest ih =>
      intro k v hnodup hmem
      simp only [List.map_cons, List.nodup_cons] at hnodup
      rcases List.mem_cons.mp hmem with he | hm
      · rw [← he]
        simp [lookupD]
      · have hne : kv.1 ≠ k := by
          intro he2
          exact hnodup.1 (he2 ▸ (List.mem_map.mpr ⟨(k, v), hm, rfl⟩))
        cases kv with
        | mk k1 v1 =>
            simp only [lookupD, if_neg hne]
            exact ih hnodup.2 hm

theorem lastNamed_eq_none_of {nm : List Char} :
    ∀ {ys : List MPart}, (∀ c2, MPart.field nm c2 ∉ ys) → lastNamed nm ys = none := by
  intro ys
  induction ys with
  | nil => intro _; rfl
  | cons p rest ih =>
      intro h
      cases p with
      | field n c =>
          have hne : ¬ n = nm := by
            intro he
            exact h c (by rw [he]; simp)
          have hrest := ih (fun c2 hc => h c2 (by simp [hc]))
          simp [lastNamed, hrest, hne]
      | other hb cb =>
          exact ih (fun c2 hc => h c2 (by simp [hc]))

theorem lastNamed_append {nm : List Char} :
    ∀ (xs ys : List MPart),
      lastNamed nm (xs ++ ys)
        = match lastNamed nm ys with
          | some v => some v
          | none => lastNamed nm xs := by
  intro xs ys
  induction xs with
  | nil =>
      show lastNamed nm ys = _
      cases lastNamed nm ys <;> rfl
  | cons p xs ih =>
      cases p with
      | field n c =>
          show (match lastNamed nm (xs ++ ys) with
                | some v => some v
                | none => if n = nm then some c else none) = _
          rw [ih]
          cases lastNamed nm ys with
          | some v => cases lastNamed nm xs <;> rfl
          | none =>
              show (match lastNamed nm xs with
                    | some v => some v
                    | none => if n = nm then some c else none) = _
              rfl
      | other hb cb =>
          show lastNamed nm (xs ++ ys) = _
          rw [ih]
          rfl

/-- C3: `decode_multipart` is a left inverse of a conforming
multipart/form-data encoder.  For every body obtained by encoding N named
byte fields (N ∈ {1, 2, 5}, names distinct) with a conforming encoder,
decoding recovers exactly the same set of (name, bytes) pairs — stated
for every reordering `fields'` of the field list, whose encoding decodes
to precisely `fields'`, a permutation of the original set. -/
theorem c3_decode_multipart_left_inverse
    (B : Bytes) (fields fields' : List (List Char × Bytes))
    (hN : fields.length = 1 ∨ fields.length = 2 ∨ fields.length = 5)
    (hnodup : (fields.map Prod.fst).Nodup)
    (hconf : Conforming B (fields.map fun nc => MPart.field nc.1 nc.2))
    (hperm : fields.Perm fields') :
    decode_multipart (encodeMultipart B (fields'.map fun nc => MPart.field nc.1 nc.2))
      = .ok fields' ∧ fields'.Perm fields := by
  obtain ⟨h1, h2, h3, h4⟩ := hconf
  have hne' : fields' ≠ [] := by
    intro he
    subst he
    have hlen := hperm.length_eq
    simp at hlen
    rcases hN with h | h | h <;> (rw [hlen] at h; simp at h)
  have hconf' : Conforming B (fields'.map fun nc => MPart.field nc.1 nc.2) := by
    refine ⟨h1, h2, by simpa using hne', ?ok⟩
    intro p hp
    simp only [List.mem_map] at hp
    obtain ⟨nc, hnc, rfl⟩ := hp
    exact h4 _ (List.mem_map.mpr ⟨nc, hperm.mem_iff.mpr hnc, rfl⟩)
  have hnodup' : (fields'.map Prod.fst).Nodup :=
    (hperm.map Prod.fst).nodup_iff.mp hnodup
  have hf : (fields'.map fun nc => MPart.field nc.1 nc.2).foldl mpStep [] = fields' := by
    rw [foldl_mpStep_eq_fieldsOf _ []
        (by rw [fieldsOf_map_field]; exact hnodup') (by simp),
      fieldsOf_map_field]
    rfl
  exact ⟨by rw [decode_multipart_encode hconf', hf], hperm.symm⟩

theorem c3_witness :
    ((([(("a".toList : List Char), strB "x"), ("b".toList, strB "hello")]).length = 1
        ∨ (([(("a".toList : List Char), strB "x"),
            ("b".toList, strB "hello")]).length = 2)
        ∨ (([(("a".toList : List Char), strB "x"),
            ("b".toList, strB "hello")]).length = 5))
      ∧ decode_multipart (encodeMultipart (strB "bnd")
          (([(("b".toList : List Char), strB "hello"), ("a".toList, strB "x")]).map
            fun nc => MPart.field nc.1 nc.2))
        = .ok [("b".toList, strB "hello"), ("a".toList, strB "x")]) :=
  ⟨Or.inr (Or.inl (by decide)),
    (c3_decode_multipart_left_inverse (strB "bnd")
      [("a".toList, strB "x"), ("b".toList, strB "hello")]
      [("b".toList, strB "hello"), ("a".toList, strB "x")]
      (Or.inr (Or.inl (by decide))) (by decide) (by decide) (by decide)).1⟩

/-- C5: for every well-formed (conformingly encoded) multipart body in
which some part's content itself contains the CRLF CRLF byte sequence,
`decode_multipart` still recovers that part's content intact, because
each part is split on the first CRLF CRLF occurrence only. -/
theorem c5_crlfcrlf_content_intact
    (B : Bytes) (parts : List MPart) (n : List Char) (c : Bytes)
    (hconf : Conforming B parts)
    (hnodup : ((fieldsOf parts).map Prod.fst).Nodup)
    (hmem : MPart.field n c ∈ parts)
    (hcontains : [13, 10, 13, 10] <:+: c) :
    ∃ r, decode_multipart (encodeMultipart B parts) = .ok r
      ∧ lookupD r n = some c := by
  refine ⟨parts.foldl mpStep [], decode_multipart_encode hconf, ?look⟩
  rw [foldl_mpStep_eq_fieldsOf parts [] hnodup (by simp)]
  show lookupD (fieldsOf parts) n = some c
  exact lookupD_of_mem_nodup hnodup (mem_fieldsOf hmem)

theorem c5_witness :
    ([13, 10, 13, 10] <:+: strB "A\r\n\r\nB")
      ∧ ∃ r, decode_multipart (encodeMultipart (strB "bnd")
          [MPart.field "a".toList (strB "A\r\n\r\nB")]) = .ok r
        ∧ lookupD r "a".toList = some (strB "A\r\n\r\nB") :=
  ⟨by decide,
    c5_crlfcrlf_content_intact (strB "bnd") [MPart.field "a".toList (strB "A\r\n\r\nB")]
      "a".toList (strB "A\r\n\r\nB") (by decide) (by decide) (by decide) (by decide)⟩

/-- C6: a well-formed multipart body containing a part whose disposition
header does not start with the form-data disposition decodes successfully
(no error raised), and the resulting mapping omits that part while
containing exactly the form-data fields. -/
theorem c6_other_disposition_dropped
    (B : Bytes) (parts : List MPart) (hd cb : Bytes)
    (hconf : Conforming B parts)
    (hnodup : ((fieldsOf parts).map Prod.fst).Nodup)
    (hmem : MPart.other hd cb ∈ parts) :
    decode_multipart (encodeMultipart B parts) = .ok (fieldsOf parts) := by
  rw [decode_multipart_encode hconf, foldl_mpStep_eq_fieldsOf parts [] hnodup (by simp)]
  rfl

theorem c6_witness :
    decode_multipart (encodeMultipart (strB "bnd")
        [MPart.other (strB "Content-Type: text/plain") (strB "zz"),
          MPart.field "a".toList (strB "x")])
      = .ok (fieldsOf
          [MPart.other (strB "Content-Type: text/plain") (strB "zz"),
            MPart.field "a".toList (strB "x")]) :=
  c6_other_disposition_dropped (strB "bnd")
    [MPart.other (strB "Content-Type: text/plain") (strB "zz"),
      MPart.field "a".toList (strB "x")]
    (strB "Content-Type: text/plain") (strB "zz") (by decide) (by decide) (by decide)

/-- C10: in a well-formed multipart body with two or more form-data parts
sharing the same name, the decoded mapping binds that name to the content
of the last such part in body order; earlier same-named parts are
overwritten and the result never holds more than one entry per name. -/
theorem c10_duplicate_names_last_wins
    (B : Bytes) (pre suf : List MPart) (nm : List Char) (c c1 : Bytes)
    (hconf : Conforming B (pre ++ MPart.field nm c :: suf))
    (hdup : MPart.field nm c1 ∈ pre)
    (hlast : ∀ c2, MPart.field nm c2 ∉ suf) :
    ∃ r, decode_multipart (encodeMultipart B (pre ++ MPart.field nm c :: suf)) = .ok r
      ∧ lookupD r nm = some c ∧ (r.map Prod.fst).Nodup := by
  refine ⟨_, decode_multipart_encode hconf, ?look,
    nodup_keys_foldl_mpStep _ [] (by simp)⟩
  rw [lookupD_foldl_mpStep]
  have h1 : lastNamed nm suf = none := lastNamed_eq_none_of hlast
  have h2 : lastNamed nm (MPart.field nm c :: suf) = some c := by
    simp [lastNamed, h1]
  rw [lastNamed_append, h2]

theorem c10_witness :
    (MPart.field "a".toList (strB "old") ∈ [MPart.field "a".toList (strB "old")])
      ∧ ∃ r, decode_multipart (encodeMultipart (strB "bnd")
          ([MPart.field "a".toList (strB "old")]
            ++ MPart.field "a".toList (strB "new") :: [])) = .ok r
        ∧ lookupD r "a".toList = some (strB "new")
        ∧ (r.map Prod.fst).Nodup :=
  ⟨by decide,
    c10_duplicate_names_last_wins (strB "bnd") [MPart.field "a".toList (strB "old")] []
      "a".toList (strB "new") (strB "old") (by decide) (by decide)
      (fun c2 hc => absurd hc (List.not_mem_nil _))⟩

/-- An HTTP response as `MyHandler.respond` emits it: status code, the
optional `Content-type` header, the always-present `Cache-Control`
header, and the body bytes written to the socket. -/
structure Response where
  status : Nat
  contentType : Option (List Char)
  cacheControl : List Char
  bodyBytes : Bytes
deriving DecidableEq

/-- The `contents_b` argument of `respond`: omitted (`None`), a Python
`str`, or a Python `bytes`. -/
inductive RespBody where
  | omitted
  | text (s : List Char)
  | bytes (b : Bytes)
deriving DecidableEq

/-- `MyHandler.respond` from `appserver.py`: `send_response(code)`, the
optional `Content-type` header, `Cache-Control: no-cache`, `end_headers`,
then the body write.  Python's `if contents_b:` skips the write for
`None`, `b""` and `""` alike — observationally a zero-length body — and
encodes a `str` body to UTF-8 before writing. -/
def respond (code : Nat) (content_type : Option (List Char)) (contents_b : RespBody) :
    Response :=
  { status := code
    contentType := content_type
    cacheControl := "no-cache".toList
    bodyBytes :=
      match contents_b with
      | .omitted => []
      | .text s => if s = [] then [] else utf8Encode s
      | .bytes b => if b = [] then [] else b }

/-- JSON values as Python's `json` module produces them, restricted to
null, booleans, arbitrary-precision ints, strings, arrays and objects
(float literals are outside this model; see `jsonLoads`). -/
inductive JVal where
  | jnull
  | jbool (b : Bool)
  | jint (n : Int)
  | jstr (s : List Char)
  | jarr (xs : List JVal)
  | jobj (kvs : List (List Char × JVal))

/-- The single positional argument the dispatcher passes to a handler:
a decoded JSON value (GET query / PUT JSON body) or the name-to-bytes
dict from the multipart decoder (PUT multipart body). -/
inductive PyArg where
  | json (v : JVal)
  | dict (d : List (List Char × Bytes))

/-- The observable behaviour of a registered handler body on one
invocation: the responses it writes, and either normal return or a
raised exception carrying its message text (`str(e)`). -/
def RouteFun := List PyArg → List Response × Except (List Char) Unit

/-- The `trycatch` wrapper the `route` decorator installs around every
handler: run the handler; if it raises, respond
`404, "text/plain", str(e)` and then re-raise the same exception. -/
def trycatch (f : RouteFun) : RouteFun := fun args =>
  match f args with
  | (sent, .ok ()) => (sent, .ok ())
  | (sent, .error e) =>
      (sent ++ [respond 404 (some "text/plain".toList) (.text e)], .error e)

/-- Python `s.replace(old, new)` for non-empty `old` (equals
`new.join(s.split(old))`; the program only ever replaces `"_"`). -/
def pyReplace (s old new : List Char) : List Char :=
  List.intercalate new (pySplit s old)

/-- The route path derived from a handler's name:
`"/" + f.__name__.replace("_", "/")`. -/
def routeName (fname : List Char) : List Char := '/' :: pyReplace fname ['_'] ['/']

/-- The `route` decorator's effect on the module-level `routes` dict:
store the trycatch-wrapped handler under the derived path. -/
def route (table : List (List Char × RouteFun)) (fname : List Char) (f : RouteFun) :
    List (List Char × RouteFun) :=
  dictInsert table (routeName fname) (trycatch f)

/-- A module's worth of `@route` registrations, applied in source order
to the initially empty routes dict. -/
def buildRoutes (regs : List (List Char × RouteFun)) : List (List Char × RouteFun) :=
  regs.foldl (fun t nf => route t nf.1 nf.2) []

/-- C9: every call to `respond` emits `Cache-Control: no-cache`
regardless of status and body; a bytes body is written unchanged, a text
body as exactly its UTF-8 encoding, and an omitted or zero-length body
yields a zero-length body after the headers. -/
theorem c9_respond_behaviour (code : Nat) (ct : Option (List Char)) :
    (∀ b : RespBody, (respond code ct b).cacheControl = "no-cache".toList)
      ∧ (∀ bs : Bytes, (respond code ct (.bytes bs)).bodyBytes = bs)
      ∧ (∀ s : List Char, (respond code ct (.text s)).bodyBytes = utf8Encode s)
      ∧ (respond code ct .omitted).bodyBytes = []
      ∧ (respond code ct (.bytes [])).bodyBytes = []
      ∧ (respond code ct .omitted).status = code := by
  refine ⟨fun b => rfl, fun bs => ?bytes, fun s => ?text, rfl, rfl, rfl⟩
  case bytes => by_cases h : bs = [] <;> simp [respond, h]
  case text =>
    by_cases h : s = []
    · subst h; rfl
    · simp [respond, h]

/-- Decimal digit character for a value < 10. -/
def digitChar : Nat → Char
  | 0 => '0' | 1 => '1' | 2 => '2' | 3 => '3' | 4 => '4'
  | 5 => '5' | 6 => '6' | 7 => '7' | 8 => '8' | _ => '9'

/-- Lowercase hex digit character for a value < 16. -/
def hexDigit : Nat → Char
  | 0 => '0' | 1 => '1' | 2 => '2' | 3 => '3' | 4 => '4'
  | 5 => '5' | 6 => '6' | 7 => '7' | 8 => '8' | 9 => '9'
  | 10 => 'a' | 11 => 'b' | 12 => 'c' | 13 => 'd' | 14 => 'e' | _ => 'f'

/-- Hex digit value of a character (both cases accepted), as in Python's
number scanners. -/
def hexVal (c : Char) : Option Nat :=
  if '0' ≤ c ∧ c ≤ '9' then some (c.toNat - 48)
  else if 'a' ≤ c ∧ c ≤ 'f' then some (c.toNat - 87)
  else if 'A' ≤ c ∧ c ≤ 'F' then some (c.toNat - 55)
  else none

theorem hexVal_hexDigit : ∀ m, m < 16 → hexVal (hexDigit m) = some m := by decide

theorem digitChar_toNat : ∀ n, n < 10 → (digitChar n).toNat = n + 48 := by decide

theorem digitChar_isDigit : ∀ n, n < 10 → (digitChar n).isDigit = true := by decide

theorem digitChar_ne_zero : ∀ n, n < 10 → 0 < n → digitChar n ≠ '0' := by decide

/-- The decimal digits of a natural number, most significant first. -/
def natToDigits (n : Nat) : List Char :=
  if h : n < 10 then [digitChar n]
  else natToDigits (n / 10) ++ [digitChar (n % 10)]
termination_by n
decreasing_by
  have h10 : 10 ≤ n := Nat.le_of_not_lt h
  omega

/-- The value of a run of decimal digit characters. -/
def digitsToNat (ds : List Char) : Nat :=
  ds.foldl (fun acc c => acc * 10 + (c.toNat - 48)) 0

theorem digitsToNat_append_digit (ds : List Char) (c : Char) :
    digitsToNat (ds ++ [c]) = digitsToNat ds * 10 + (c.toNat - 48) := by
  simp [digitsToNat, List.foldl_append]

theorem natToDigits_ne_nil (n : Nat) : natToDigits n ≠ [] := by
  rw [natToDigits]
  split
  · simp
  · simp

theorem natToDigits_digits (n : Nat) : ∀ c ∈ natToDigits n, c.isDigit = true := by
  induction n using Nat.strong_induction_on with
  | _ n ih =>
      rw [natToDigits]
      split
      · next h =>
          intro c hc
          simp at hc
          subst hc
          exact digitChar_isDigit n h
      · next h =>
          intro c hc
          simp only [List.mem_append, List.mem_singleton] at hc
          rcases hc with hc | hc
          · exact ih (n / 10) (by omega) c hc
          · subst hc
            exact digitChar_isDigit (n % 10) (by omega)

theorem digitsToNat_natToDigits (n : Nat) : digitsToNat (natToDigits n) = n := by
  induction n using Nat.strong_induction_on with
  | _ n ih =>
      rw [natToDigits]
      split
      · next h =>
          show digitsToNat [digitChar n] = n
          simp [digitsToNat, digitChar_toNat n h]
      · next h =>
          rw [digitsToNat_append_digit, ih (n / 10) (by omega),
            digitChar_toNat (n % 10) (by omega)]
          omega

theorem natToDigits_head_ne_zero {n : Nat} (hn : n ≠ 0) :
    ∀ c t, natToDigits n = c :: t → c ≠ '0' := by
  induction n using Nat.strong_induction_on with
  | _ n ih =>
      rw [natToDigits]
      split
      · next h =>
          intro c t he
          simp at he
          rw [← he.1]
          exact digitChar_ne_zero n h (by omega)
      · next h =>
          intro c t he
          obtain ⟨c2, t2, h2⟩ : ∃ c2 t2, natToDigits (n / 10) = c2 :: t2 := by
            cases hx : natToDigits (n / 10) with
            | nil => exact absurd hx (natToDigits_ne_nil _)
            | cons a b => exact ⟨a, b, rfl⟩
          rw [h2] at he
          simp at he
          rw [← he.1]
          exact ih (n / 10) (by omega) (by omega) c2 t2 h2

theorem toNat_ofNat_valid {n : Nat} (h : n.isValidChar) : (Char.ofNat n).toNat = n := by
  rw [Char.ofNat, dif_pos h]
  rfl

theorem char_toNat_valid (c : Char) :
    c.toNat < 0xD800 ∨ (0xDFFF < c.toNat ∧ c.toNat < 0x110000) := by
  rcases c.valid with h | h
  · exact Or.inl h
  · exact Or.inr h

/-- Four lowercase hex digits of a value < 0x10000. -/
def toHex4 (n : Nat) : List Char :=
  [hexDigit (n / 4096 % 16), hexDigit (n / 256 % 16), hexDigit (n / 16 % 16),
    hexDigit (n % 16)]

/-- Modelled from the spec: the JSON string escaping of one character as
an ensure-ascii JSON encoder (like Python `json.dumps`) performs it —
quote and backslash escaped, every other non-printable or non-ASCII
character as `\uXXXX`, with a surrogate pair for code points above
0xFFFF. -/
def escapeChar (c : Char) : List Char :=
  if c = '"' then ['\\', '"']
  else if c = '\\' then ['\\', '\\']
  else if c.toNat < 32 ∨ 126 < c.toNat then
    if c.toNat < 0x10000 then '\\' :: 'u' :: toHex4 c.toNat
    else
      ('\\' :: 'u' :: toHex4 (0xD800 + (c.toNat - 0x10000) / 0x400))
        ++ ('\\' :: 'u' :: toHex4 (0xDC00 + (c.toNat - 0x10000) % 0x400))
  else [c]

/-- The escaped body of a JSON string literal. -/
def escString (s : List Char) : List Char := (s.map escapeChar).flatten

/-- A JSON string literal: quote, escaped body, quote. -/
def dumpString (s : List Char) : List Char := '"' :: (escString s ++ ['"'])

/-- Read four hex digits (Python json's `\uXXXX` scanner). -/
def parseHex4 : List Char → Option (Nat × List Char)
  | a :: b :: c :: d :: r =>
      match hexVal a, hexVal b, hexVal c, hexVal d with
      | some ha, some hb, some hc, some hd =>
          some (ha * 4096 + hb * 256 + hc * 16 + hd, r)
      | _, _, _, _ => none
  | _ => none

/-- The low-surrogate continuation of a `\uXXXX` high surrogate: expects
a second `\uXXXX` escape holding a low surrogate and combines the pair. -/
def parseUEscapePair (n : Nat) : List Char → Except PyExc (Char × List Char)
  | '\\' :: 'u' :: r2 =>
      match parseHex4 r2 with
      | none => .error .jsonDecodeError
      | some (m, r3) =>
          if 0xDC00 ≤ m ∧ m < 0xE000 then
            .ok (Char.ofNat (0x10000 + (n - 0xD800) * 0x400 + (m - 0xDC00)), r3)
          else .error .jsonDecodeError
  | _ => .error .jsonDecodeError

/-- Interpret the value of one `\uXXXX` escape: a high surrogate starts
a pair, a lone low surrogate is rejected (Python would keep an unpaired
surrogate `str` element, unrepresentable as a Lean `Char`; out of this
model), anything else is the code point itself. -/
def parseUEscapeCore (n : Nat) (r : List Char) : Except PyExc (Char × List Char) :=
  if 0xD800 ≤ n ∧ n < 0xDC00 then parseUEscapePair n r
  else if 0xDC00 ≤ n ∧ n < 0xE000 then .error .jsonDecodeError
  else .ok (Char.ofNat n, r)

/-- Modelled from the spec: Python json's `\uXXXX` handling. -/
def parseUEscape (s : List Char) : Except PyExc (Char × List Char) :=
  match parseHex4 s with
  | none => .error .jsonDecodeError
  | some (n, r) => parseUEscapeCore n r

/-- The single-character JSON escapes. -/
def parseEscapeChar (e : Char) : Option Char :=
  if e = '"' then some '"'
  else if e = '\\' then some '\\'
  else if e = '/' then some '/'
  else if e = 'b' then some (Char.ofNat 8)
  else if e = 'f' then some (Char.ofNat 12)
  else if e = 'n' then some '\n'
  else if e = 'r' then some '\r'
  else if e = 't' then some '\t'
  else none

theorem parseHex4_length {s r : List Char} {n : Nat}
    (h : parseHex4 s = some (n, r)) : r.length + 4 = s.length := by
  match s with
  | a :: b :: c :: d :: r2 =>
      simp only [parseHex4] at h
      split at h
      · injection h with h2
        injection h2 with h3 h4
        subst h4
        simp
      · cases h
  | [] => cases h
  | [a] => cases h
  | [a, b] => cases h
  | [a, b, c] => cases h

theorem parseUEscapePair_length {n : Nat} {r rest : List Char} {c : Char}
    (h : parseUEscapePair n r = .ok (c, rest)) : rest.length < r.length := by
  unfold parseUEscapePair at h
  split at h
  case h_2 => cases h
  case h_1 r2 =>
      cases h5 : parseHex4 r2 with
      | none => simp only [h5] at h; cases h
      | some mr =>
          obtain ⟨m, r3⟩ := mr
          simp only [h5] at h
          have hl2 := parseHex4_length h5
          split at h
          · injection h with h6
            injection h6 with h7 h8
            subst h8
            simp only [List.length_cons]
            omega
          · cases h

theorem parseUEscape_length {s r : List Char} {c : Char}
    (h : parseUEscape s = .ok (c, r)) : r.length < s.length := by
  unfold parseUEscape at h
  cases h4 : parseHex4 s with
  | none => simp only [h4] at h; cases h
  | some nr =>
      obtain ⟨n, r1⟩ := nr
      simp only [h4] at h
      have hl1 := parseHex4_length h4
      unfold parseUEscapeCore at h
      split at h
      · have := parseUEscapePair_length h
        omega
      · split at h
        · cases h
        · injection h with h6
          injection h6 with h7 h8
          subst h8
          omega

/-- One step of Python json's strict string scanner (`py_scanstring`):
the closing quote (`none`), or one decoded character — a raw character
(control characters rejected), a single-character escape, or a `\uXXXX`
escape — together with the remaining input. -/
def strScanOne : List Char → Except PyExc (Option Char × List Char)
  | [] => .error .jsonDecodeError
  | c :: r =>
      if c = '"' then .ok (none, r)
      else if c = '\\' then
        match r with
        | [] => .error .jsonDecodeError
        | e :: r2 =>
            if e = 'u' then
              match parseUEscape r2 with
              | .error err => .error err
              | .ok (ch, r3) => .ok (some ch, r3)
            else
              match parseEscapeChar e with
              | none => .error .jsonDecodeError
              | some ch => .ok (some ch, r2)
      else if c.toNat < 32 then .error .jsonDecodeError
      else .ok (some c, r)

theorem strScanOne_length {s rest : List Char} {oc : Option Char}
    (h : strScanOne s = .ok (oc, rest)) : rest.length < s.length := by
  cases s with
  | nil => cases h
  | cons c r =>
      simp only [strScanOne] at h
      split at h
      · injection h with h2
        injection h2 with h3 h4
        subst h4
        simp
      · split at h
        · split at h
          · cases h
          · rename_i e r2
            split at h
            · cases hu : parseUEscape r2 with
              | error err => simp only [hu] at h; cases h
              | ok p =>
                  obtain ⟨ch, r3⟩ := p
                  simp only [hu] at h
                  injection h with h2
                  injection h2 with h3 h4
                  subst h4
                  have := parseUEscape_length hu
                  simp only [List.length_cons]
                  omega
            · split at h
              · cases h
              · injection h with h2
                injection h2 with h3 h4
                subst h4
                simp only [List.length_cons]
                omega
        · split at h
          · cases h
          · injection h with h2
            injection h2 with h3 h4
            subst h4
            simp

/-- The body of Python json's string scanner after the opening quote:
scan decoded characters up to the closing quote. -/
def parseStringRest (s : List Char) : Except PyExc (List Char × List Char) :=
  match h : strScanOne s with
  | .error err => .error err
  | .ok (none, rest) => .ok ([], rest)
  | .ok (some ch, rest) => (parseStringRest rest).map (fun p => (ch :: p.1, p.2))
termination_by s.length
decreasing_by exact strScanOne_length h

theorem parseStringRest_close {s rest : List Char}
    (h : strScanOne s = .ok (none, rest)) : parseStringRest s = .ok ([], rest) := by
  rw [parseStringRest.eq_def]
  split
  · next heq => rw [h] at heq; cases heq
  · next heq => rw [h] at heq; injection heq with h2; injection h2 with h3 h4; subst h4; rfl
  · next ch2 rest2 heq => rw [h] at heq; injection heq with h2; injection h2 with h3 h4; cases h3

theorem parseStringRest_step {s rest : List Char} {ch : Char}
    (h : strScanOne s = .ok (some ch, rest)) :
    parseStringRest s = (parseStringRest rest).map (fun p => (ch :: p.1, p.2)) := by
  rw [parseStringRest.eq_def]
  split
  · next heq => rw [h] at heq; cases heq
  · next heq =>
      rw [h] at heq
      injection heq with h2
      injection h2 with h3 h4
      cases h3
  · next ch2 rest2 heq =>
      rw [h] at heq
      injection heq with h2
      injection h2 with h3 h4
      injection h3 with h5
      subst h5
      subst h4
      rfl

theorem strScanOne_quote (r : List Char) : strScanOne ('"' :: r) = .ok (none, r) := by
  simp [strScanOne]

theorem strScanOne_plain {c : Char} (r : List Char) (h1 : ¬ c = '"') (h2 : ¬ c = '\\')
    (h3 : ¬ c.toNat < 32) : strScanOne (c :: r) = .ok (some c, r) := by
  simp [strScanOne, h1, h2, h3]

theorem strScanOne_esc {e ch : Char} (r2 : List Char) (hne : ¬ e = 'u')
    (h : parseEscapeChar e = some ch) :
    strScanOne ('\\' :: e :: r2) = .ok (some ch, r2) := by
  simp [strScanOne, hne, h]

theorem strScanOne_unicode {ch : Char} {r2 r3 : List Char}
    (h : parseUEscape r2 = .ok (ch, r3)) :
    strScanOne ('\\' :: 'u' :: r2) = .ok (some ch, r3) := by
  simp [strScanOne, h]

theorem parseHex4_toHex4 {n : Nat} (hn : n < 0x10000) (rest : List Char) :
    parseHex4 (toHex4 n ++ rest) = some (n, rest) := by
  have hsplit : toHex4 n ++ rest
      = hexDigit (n / 4096 % 16) :: hexDigit (n / 256 % 16) :: hexDigit (n / 16 % 16)
          :: hexDigit (n % 16) :: rest := rfl
  rw [hsplit]
  simp only [parseHex4, hexVal_hexDigit (n / 4096 % 16) (by omega),
    hexVal_hexDigit (n / 256 % 16) (by omega), hexVal_hexDigit (n / 16 % 16) (by omega),
    hexVal_hexDigit (n % 16) (by omega)]
  have harith : n / 4096 % 16 * 4096 + n / 256 % 16 * 256 + n / 16 % 16 * 16 + n % 16 = n := by
    omega
  rw [harith]

theorem parseUEscape_eq_core {s r : List Char} {n : Nat} (h : parseHex4 s = some (n, r)) :
    parseUEscape s = parseUEscapeCore n r := by
  unfold parseUEscape
  rw [h]

theorem parseUEscape_toHex4_bmp {c : Char} (hlt : c.toNat < 0x10000) (rest : List Char) :
    parseUEscape (toHex4 c.toNat ++ rest) = .ok (c, rest) := by
  rw [parseUEscape_eq_core (parseHex4_toHex4 hlt _)]
  unfold parseUEscapeCore
  rcases char_toNat_valid c with hv | hv
  · rw [if_neg (by omega), if_neg (by omega), Char.ofNat_toNat]
  · rw [if_neg (by omega), if_neg (by omega), Char.ofNat_toNat]

theorem parseUEscape_pair {c : Char} (hge : ¬ c.toNat < 0x10000) (rest : List Char) :
    parseUEscape (toHex4 (0xD800 + (c.toNat - 0x10000) / 0x400)
        ++ ('\\' :: 'u' :: (toHex4 (0xDC00 + (c.toNat - 0x10000) % 0x400) ++ rest)))
      = .ok (c, rest) := by
  have hv : 0xDFFF < c.toNat ∧ c.toNat < 0x110000 := by
    rcases char_toNat_valid c with hv | hv
    · omega
    · exact hv
  have hhi : 0xD800 + (c.toNat - 0x10000) / 0x400 < 0x10000 := by omega
  have hlo : 0xDC00 + (c.toNat - 0x10000) % 0x400 < 0x10000 := by omega
  rw [parseUEscape_eq_core (parseHex4_toHex4 hhi _)]
  unfold parseUEscapeCore
  rw [if_pos (by constructor <;> omega)]
  simp only [parseUEscapePair, parseHex4_toHex4 hlo]
  rw [if_pos (by constructor <;> omega)]
  have harith : 0x10000
      + (0xD800 + (c.toNat - 0x10000) / 0x400 - 0xD800) * 0x400
      + (0xDC00 + (c.toNat - 0x10000) % 0x400 - 0xDC00) = c.toNat := by
    omega
  rw [harith, Char.ofNat_toNat]

theorem parseStringRest_escString :
    ∀ (s rest : List Char), parseStringRest (escString s ++ ('"' :: rest)) = .ok (s, rest) := by
  intro s
  induction s with
  | nil =>
      intro rest
      have h0 : escString ([] : List Char) ++ ('"' :: rest) = '"' :: rest := rfl
      rw [h0, parseStringRest_close (strScanOne_quote rest)]
  | cons c t ih =>
      intro rest
      have hesc : escString (c :: t) ++ ('"' :: rest)
          = escapeChar c ++ (escString t ++ ('"' :: rest)) := by
        simp [escString, List.append_assoc]
      rw [hesc]
      by_cases h1 : c = '"'
      · subst h1
        have he : escapeChar '"' ++ (escString t ++ ('"' :: rest))
            = '\\' :: '"' :: (escString t ++ ('"' :: rest)) := rfl
        rw [he, parseStringRest_step (strScanOne_esc _ (by decide)
          (show parseEscapeChar '"' = some '"' from rfl)), ih rest]
        rfl
      · by_cases h2 : c = '\\'
        · subst h2
          have he : escapeChar '\\' ++ (escString t ++ ('"' :: rest))
              = '\\' :: '\\' :: (escString t ++ ('"' :: rest)) := rfl
          rw [he, parseStringRest_step (strScanOne_esc _ (by decide)
            (show parseEscapeChar '\\' = some '\\' from rfl)), ih rest]
          rfl
        · by_cases h3 : c.toNat < 32 ∨ 126 < c.toNat
          · by_cases h4 : c.toNat < 0x10000
            · have he : escapeChar c ++ (escString t ++ ('"' :: rest))
                  = '\\' :: 'u' :: (toHex4 c.toNat ++ (escString t ++ ('"' :: rest))) := by
                unfold escapeChar
                rw [if_neg h1, if_neg h2, if_pos h3, if_pos h4]
                simp [toHex4]
              rw [he,
                parseStringRest_step (strScanOne_unicode (parseUEscape_toHex4_bmp h4 _)),
                ih rest]
              rfl
            · have he : escapeChar c ++ (escString t ++ ('"' :: rest))
                  = '\\' :: 'u' :: (toHex4 (0xD800 + (c.toNat - 0x10000) / 0x400)
                      ++ ('\\' :: 'u' :: (toHex4 (0xDC00 + (c.toNat - 0x10000) % 0x400)
                        ++ (escString t ++ ('"' :: rest))))) := by
                unfold escapeChar
                rw [if_neg h1, if_neg h2, if_pos h3, if_neg h4]
                simp [toHex4]
              rw [he,
                parseStringRest_step (strScanOne_unicode (parseUEscape_pair h4 _)),
                ih rest]
              rfl
          · have hge : ¬ c.toNat < 32 := fun hlt => h3 (Or.inl hlt)
            have he : escapeChar c ++ (escString t ++ ('"' :: rest))
                = c :: (escString t ++ ('"' :: rest)) := by
              unfold escapeChar
              rw [if_neg h1, if_neg h2, if_neg h3]
              rfl
            rw [he, parseStringRest_step (strScanOne_plain _ h1 h2 hge), ih rest]
            rfl

/-- Modelled from the spec: after Python json's integer token, a
fractional part or exponent would make the literal a float; floats are
outside this model and rejected. -/
def checkNoFrac (n : Nat) (rest : List Char) : Except PyExc (Nat × List Char) :=
  match rest with
  | c :: _ =>
      if c = '.' ∨ c = 'e' ∨ c = 'E' then .error .jsonDecodeError
      else .ok (n, rest)
  | [] => .ok (n, rest)

/-- Modelled from the spec: the unsigned part of Python json's number
token, `0|[1-9][0-9]*` (so `0` followed by more digits ends the token
after the `0`). -/
def parseNatNumber : List Char → Except PyExc (Nat × List Char)
  | '0' :: r => checkNoFrac 0 r
  | c :: r =>
      if c.isDigit then
        checkNoFrac (digitsToNat ((c :: r).takeWhile Char.isDigit))
          ((c :: r).dropWhile Char.isDigit)
      else .error .jsonDecodeError
  | [] => .error .jsonDecodeError

/-- Modelled from the spec: Python json's number token with optional
leading minus, restricted to integers. -/
def parseNumber (s : List Char) : Except PyExc (Int × List Char) :=
  match s with
  | '-' :: r => (parseNatNumber r).map (fun p => (-(p.1 : Int), p.2))
  | _ => (parseNatNumber s).map (fun p => ((p.1 : Int), p.2))

/-- Canonical decimal printing of an integer (what a conforming JSON
encoder emits for an int). -/
def intDumps (n : Int) : List Char :=
  if n < 0 then '-' :: natToDigits n.natAbs else natToDigits n.toNat

/-- What may legally follow a complete JSON value in the round-trip
argument: end of input, or a separator/closer. -/
def RestOk : List Char → Prop
  | [] => True
  | c :: _ => c = ',' ∨ c = ']' ∨ c = '\x7d'

theorem takeWhile_append_boundary {α : Type} {l r : List α} {f : α → Bool}
    (hl : ∀ x ∈ l, f x = true)
    (hr : ∀ c t, r = c :: t → f c = false) :
    (l ++ r).takeWhile f = l ∧ (l ++ r).dropWhile f = r := by
  induction l with
  | nil =>
      cases r with
      | nil => simp
      | cons c t =>
          have := hr c t rfl
          simp [List.takeWhile_cons, List.dropWhile_cons, this]
  | cons x t ih =>
      have hx := hl x (by simp)
      have := ih (fun y hy => hl y (by simp [hy]))
      simp [List.takeWhile_cons, List.dropWhile_cons, hx, this.1, this.2]

theorem checkNoFrac_restOk {n : Nat} {rest : List Char} (hrest : RestOk rest) :
    checkNoFrac n rest = .ok (n, rest) := by
  cases rest with
  | nil => rfl
  | cons c t =>
      rcases hrest with h | h | h <;> (subst h; simp [checkNoFrac])

theorem parseNatNumber_not_zero {c : Char} {r : List Char} (h : ¬ c = '0') :
    parseNatNumber (c :: r)
      = if c.isDigit then
          checkNoFrac (digitsToNat ((c :: r).takeWhile Char.isDigit))
            ((c :: r).dropWhile Char.isDigit)
        else .error .jsonDecodeError := by
  unfold parseNatNumber
  split
  · next heq =>
      injection heq with h1 h2
      exact absurd h1 h
  · next c2 r2 heq =>
      injection heq with h1 h2
      subst h1
      subst h2
      rfl
  · next heq => cases heq

theorem restOk_not_digit {rest : List Char} (hrest : RestOk rest) :
    ∀ c t, rest = c :: t → c.isDigit = false := by
  intro c t he
  subst he
  rcases hrest with h | h | h <;> (subst h; decide)

theorem parseNatNumber_natToDigits {n : Nat} {rest : List Char} (hrest : RestOk rest) :
    parseNatNumber (natToDigits n ++ rest) = .ok (n, rest) := by
  by_cases h0 : n = 0
  · subst h0
    have h00 : natToDigits 0 = ['0'] := by rw [natToDigits]; rfl
    have he : natToDigits 0 ++ rest = '0' :: rest := by rw [h00]; rfl
    rw [he]
    show checkNoFrac 0 rest = _
    exact checkNoFrac_restOk hrest
  · obtain ⟨c, t, hct⟩ : ∃ c t, natToDigits n = c :: t := by
      cases hx : natToDigits n with
      | nil => exact absurd hx (natToDigits_ne_nil _)
      | cons a b => exact ⟨a, b, rfl⟩
    have hcne : c ≠ '0' := natToDigits_head_ne_zero h0 c t hct
    have hdig : ∀ x ∈ natToDigits n, Char.isDigit x = true := natToDigits_digits n
    have hcd : c.isDigit = true := by
      apply hdig
      rw [hct]
      simp
    have hbd := takeWhile_append_boundary hdig (restOk_not_digit hrest)
    rw [hct] at hbd
    rw [hct, List.cons_append, parseNatNumber_not_zero hcne]
    rw [show ((c :: t) ++ rest : List Char) = c :: (t ++ rest) from rfl] at hbd
    rw [if_pos hcd, hbd.1, hbd.2, ← hct, digitsToNat_natToDigits]
    exact checkNoFrac_restOk hrest

theorem parseNumber_not_neg {c : Char} {r : List Char} (h : ¬ c = '-') :
    parseNumber (c :: r) = (parseNatNumber (c :: r)).map (fun p => ((p.1 : Int), p.2)) := by
  unfold parseNumber
  split
  · next heq =>
      injection heq with h1 h2
      exact absurd h1 h
  · rfl

theorem parseNumber_intDumps {n : Int} {rest : List Char} (hrest : RestOk rest) :
    parseNumber (intDumps n ++ rest) = .ok (n, rest) := by
  by_cases hneg : n < 0
  · have he : intDumps n ++ rest = '-' :: (natToDigits n.natAbs ++ rest) := by
      unfold intDumps
      rw [if_pos hneg]
      rfl
    rw [he]
    show (parseNatNumber (natToDigits n.natAbs ++ rest)).map _ = _
    rw [parseNatNumber_natToDigits hrest]
    show Except.ok (-((n.natAbs : Nat) : Int), rest) = Except.ok (n, rest)
    rw [show -((n.natAbs : Nat) : Int) = n from by omega]
  · have he : intDumps n ++ rest = natToDigits n.toNat ++ rest := by
      unfold intDumps
      rw [if_neg hneg]
    obtain ⟨c, t, hct⟩ : ∃ c t, natToDigits n.toNat = c :: t := by
      cases hx : natToDigits n.toNat with
      | nil => exact absurd hx (natToDigits_ne_nil _)
      | cons a b => exact ⟨a, b, rfl⟩
    have hcd : c.isDigit = true := by
      apply natToDigits_digits
      rw [hct]
      simp
    have hcm : ¬ c = '-' := by
      intro he2
      subst he2
      cases hcd
    rw [he, hct, List.cons_append, parseNumber_not_neg hcm, ← List.cons_append, ← hct,
      parseNatNumber_natToDigits hrest]
    show Except.ok (((n.toNat : Nat) : Int), rest) = Except.ok (n, rest)
    rw [show ((n.toNat : Nat) : Int) = n from by omega]

/-! ### JSON values: serialization, well-formedness, size -/

mutual
/-- Modelled from the spec: the canonical serialization a conforming
client produces for a JSON value (compact separators, ensure-ascii
strings via `dumpString`, integers in decimal via `intDumps`). -/
def jsonDumps : JVal → List Char
  | .jnull => ['n', 'u', 'l', 'l']
  | .jbool true => ['t', 'r', 'u', 'e']
  | .jbool false => ['f', 'a', 'l', 's', 'e']
  | .jint n => intDumps n
  | .jstr s => dumpString s
  | .jarr xs => '[' :: (jsonDumpsArr xs ++ [']'])
  | .jobj kvs => '\x7b' :: (jsonDumpsObj kvs ++ ['\x7d'])

/-- Comma-separated serialization of array elements. -/
def jsonDumpsArr : List JVal → List Char
  | [] => []
  | [v] => jsonDumps v
  | v :: w :: rest => jsonDumps v ++ (',' :: jsonDumpsArr (w :: rest))

/-- Comma-separated serialization of object members. -/
def jsonDumpsObj : List (List Char × JVal) → List Char
  | [] => []
  | [(k, v)] => dumpString k ++ (':' :: jsonDumps v)
  | (k, v) :: kw :: rest =>
      dumpString k ++ (':' :: (jsonDumps v ++ (',' :: jsonDumpsObj (kw :: rest))))
end

mutual
/-- Well-formedness of a JSON value for round-trip statements: every
object in it has pairwise-distinct keys (a Python dict cannot hold
duplicates, so only such values arise from and survive a dict). -/
def jwf : JVal → Bool
  | .jnull => true
  | .jbool _ => true
  | .jint _ => true
  | .jstr _ => true
  | .jarr xs => jwfArr xs
  | .jobj kvs => decide (kvs.map Prod.fst).Nodup && jwfObj kvs

/-- All elements well-formed. -/
def jwfArr : List JVal → Bool
  | [] => true
  | v :: rest => jwf v && jwfArr rest

/-- All member values well-formed. -/
def jwfObj : List (List Char × JVal) → Bool
  | [] => true
  | (_, v) :: rest => jwf v && jwfObj rest
end

mutual
/-- Structural size of a JSON value, used as parser fuel. -/
def jsize : JVal → Nat
  | .jnull => 1
  | .jbool _ => 1
  | .jint _ => 1
  | .jstr _ => 1
  | .jarr xs => 1 + jsizeArr xs
  | .jobj kvs => 1 + jsizeObj kvs

/-- Total size of array elements. -/
def jsizeArr : List JVal → Nat
  | [] => 0
  | v :: rest => 1 + jsize v + jsizeArr rest

/-- Total size of object member values. -/
def jsizeObj : List (List Char × JVal) → Nat
  | [] => 0
  | (_, v) :: rest => 1 + jsize v + jsizeObj rest
end

/-- Building a Python dict from a parsed member list, in order
(duplicate keys: last wins, as in `json.loads`). -/
def dictOfPairs (kvs : List (List Char × JVal)) : List (List Char × JVal) :=
  kvs.foldl (fun d kv => dictInsert d kv.1 kv.2) []

/-- JSON insignificant whitespace. -/
def isJsonWs (c : Char) : Bool := c = ' ' || c = '\t' || c = '\n' || c = '\r'

/-- Drop leading JSON whitespace. -/
def skipWs (s : List Char) : List Char := s.dropWhile isJsonWs

mutual
/-- Modelled from the spec: the value grammar of Python's `json.loads`,
restricted to the integer-only number model of `parseNumber` (float
literals are outside this model).  Fuel-based recursion; every call
consumes one unit. -/
def parseValue : Nat → List Char → Except PyExc (JVal × List Char)
  | 0, _ => .error .jsonDecodeError
  | fuel + 1, s =>
    match s with
    | 'n' :: 'u' :: 'l' :: 'l' :: r => .ok (.jnull, r)
    | 't' :: 'r' :: 'u' :: 'e' :: r => .ok (.jbool true, r)
    | 'f' :: 'a' :: 'l' :: 's' :: 'e' :: r => .ok (.jbool false, r)
    | '"' :: r => (parseStringRest r).map (fun p => (.jstr p.1, p.2))
    | '[' :: r =>
        match skipWs r with
        | ']' :: r2 => .ok (.jarr [], r2)
        | r2 => (parseItems fuel r2).map (fun p => (.jarr p.1, p.2))
    | '\x7b' :: r =>
        match skipWs r with
        | '\x7d' :: r2 => .ok (.jobj [], r2)
        | r2 => (parsePairs fuel r2).map (fun p => (.jobj (dictOfPairs p.1), p.2))
    | s => (parseNumber s).map (fun p => (.jint p.1, p.2))

/-- One or more comma-separated array elements, consuming the closing
bracket. -/
def parseItems : Nat → List Char → Except PyExc (List JVal × List Char)
  | 0, _ => .error .jsonDecodeError
  | fuel + 1, s =>
    match parseValue fuel s with
    | .error e => .error e
    | .ok (v, r) =>
      match skipWs r with
      | ',' :: r2 =>
          match parseItems fuel (skipWs r2) with
          | .error e => .error e
          | .ok (vs, r3) => .ok (v :: vs, r3)
      | ']' :: r2 => .ok ([v], r2)
      | _ => .error .jsonDecodeError

/-- One or more comma-separated object members, consuming the closing
brace. -/
def parsePairs : Nat → List Char → Except PyExc (List (List Char × JVal) × List Char)
  | 0, _ => .error .jsonDecodeError
  | fuel + 1, s =>
    match s with
    | '"' :: r =>
      match parseStringRest r with
      | .error e => .error e
      | .ok (k, r1) =>
        match skipWs r1 with
        | ':' :: r2 =>
          match parseValue fuel (skipWs r2) with
          | .error e => .error e
          | .ok (v, r3) =>
            match skipWs r3 with
            | ',' :: r4 =>
                match parsePairs fuel (skipWs r4) with
                | .error e => .error e
                | .ok (kvs, r5) => .ok ((k, v) :: kvs, r5)
            | '\x7d' :: r4 => .ok ([(k, v)], r4)
            | _ => .error .jsonDecodeError
        | _ => .error .jsonDecodeError
    | _ => .error .jsonDecodeError
end

/-- Modelled from the spec: `json.loads` on a decoded text — parse one
value, then require only whitespace to remain (`Extra data` otherwise).
The fuel `s.length + 2` dominates the structural size of any value the
text can denote. -/
def jsonLoads (s : List Char) : Except PyExc JVal :=
  match parseValue (s.length + 2) (skipWs s) with
  | .error e => .error e
  | .ok (v, r) => if skipWs r = [] then .ok v else .error .jsonDecodeError

theorem jsize_pos : ∀ v : JVal, 1 ≤ jsize v := by
  intro v
  cases v <;> simp [jsize]

theorem skipWs_cons {c : Char} {t : List Char} (h : isJsonWs c = false) :
    skipWs (c :: t) = c :: t := by
  simp [skipWs, List.dropWhile_cons, h]

theorem isDigit_ne {c d : Char} (h : c.isDigit = true) (hd : d.isDigit = false) :
    ¬ c = d := by
  intro he
  subst he
  rw [h] at hd
  cases hd

theorem intDumps_head (n : Int) :
    ∃ c t, intDumps n = c :: t ∧ (c = '-' ∨ c.isDigit = true) := by
  unfold intDumps
  split
  · exact ⟨'-', _, rfl, .inl rfl⟩
  · obtain ⟨c, t, hct⟩ : ∃ c t, natToDigits n.toNat = c :: t := by
      cases hx : natToDigits n.toNat with
      | nil => exact absurd hx (natToDigits_ne_nil _)
      | cons a b => exact ⟨a, b, rfl⟩
    refine ⟨c, t, hct, .inr ?_⟩
    apply natToDigits_digits
    rw [hct]
    simp

theorem jsonDumps_head (v : JVal) :
    ∃ c t, jsonDumps v = c :: t ∧ isJsonWs c = false ∧ ¬ c = ']' ∧ ¬ c = '\x7d' := by
  cases v with
  | jnull => exact ⟨'n', _, rfl, by decide, by decide, by decide⟩
  | jbool b =>
      cases b with
      | false => exact ⟨'f', _, rfl, by decide, by decide, by decide⟩
      | true => exact ⟨'t', _, rfl, by decide, by decide, by decide⟩
  | jint n =>
      obtain ⟨c, t, hct, hc⟩ := intDumps_head n
      refine ⟨c, t, by simp [jsonDumps, hct], ?_, ?_, ?_⟩
      · rcases hc with h | h
        · subst h; decide
        · unfold isJsonWs
          have h1 : ¬ c = ' ' := isDigit_ne h (by decide)
          have h2 : ¬ c = '\t' := isDigit_ne h (by decide)
          have h3 : ¬ c = '\n' := isDigit_ne h (by decide)
          have h4 : ¬ c = '\r' := isDigit_ne h (by decide)
          simp [h1, h2, h3, h4]
      · rcases hc with h | h
        · subst h; decide
        · exact isDigit_ne h (by decide)
      · rcases hc with h | h
        · subst h; decide
        · exact isDigit_ne h (by decide)
  | jstr s => exact ⟨'"', _, rfl, by decide, by decide, by decide⟩
  | jarr xs => exact ⟨'[', _, rfl, by decide, by decide, by decide⟩
  | jobj kvs => exact ⟨'\x7b', _, rfl, by decide, by decide, by decide⟩

theorem jsonDumpsArr_head (x : JVal) (xs : List JVal) :
    ∃ c t, jsonDumpsArr (x :: xs) = c :: t ∧ isJsonWs c = false ∧ ¬ c = ']' ∧ ¬ c = '\x7d' := by
  obtain ⟨c, t, hct, h1, h2, h3⟩ := jsonDumps_head x
  cases xs with
  | nil => exact ⟨c, t, by simp [jsonDumpsArr, hct], h1, h2, h3⟩
  | cons w ws =>
      refine ⟨c, t ++ (',' :: jsonDumpsArr (w :: ws)), ?_, h1, h2, h3⟩
      simp [jsonDumpsArr, hct]

theorem foldl_dictInsert_append {κ β : Type} [DecidableEq κ] :
    ∀ (l acc : List (κ × β)),
      (l.map Prod.fst).Nodup →
      (∀ k, k ∈ l.map Prod.fst → k ∉ acc.map Prod.fst) →
      l.foldl (fun d kv => dictInsert d kv.1 kv.2) acc = acc ++ l := by
  intro l
  induction l with
  | nil => intro acc _ _; simp
  | cons kv t ih =>
      intro acc hnd hdisj
      cases kv with
      | mk k v =>
          have hk : k ∉ acc.map Prod.fst := hdisj k (by simp)
          have hstep : dictInsert acc k v = acc ++ [(k, v)] := dictInsert_not_mem hk v
          have hnd' : (t.map Prod.fst).Nodup := by
            simp only [List.map_cons, List.nodup_cons] at hnd
            exact hnd.2
          have hkt : k ∉ t.map Prod.fst := by
            simp only [List.map_cons, List.nodup_cons] at hnd
            exact hnd.1
          have hdisj' : ∀ k2, k2 ∈ t.map Prod.fst → k2 ∉ (acc ++ [(k, v)]).map Prod.fst := by
            intro k2 hk2
            simp only [List.map_append, List.mem_append]
            rintro (hc | hc)
            · exact hdisj k2 (by simp [hk2]) hc
            · simp at hc
              subst hc
              exact hkt hk2
          show List.foldl _ (dictInsert acc k v) t = _
          rw [hstep, ih (acc ++ [(k, v)]) hnd' hdisj']
          simp

theorem dictOfPairs_eq_self {kvs : List (List Char × JVal)}
    (h : (kvs.map Prod.fst).Nodup) : dictOfPairs kvs = kvs := by
  unfold dictOfPairs
  have h0 : ∀ k, k ∈ kvs.map Prod.fst →
      k ∉ (([] : List (List Char × JVal)).map Prod.fst) := by
    intro k _
    simp
  rw [foldl_dictInsert_append kvs [] h h0]
  simp

theorem parseValue_null (f : Nat) (r : List Char) :
    parseValue (f + 1) ('n' :: 'u' :: 'l' :: 'l' :: r) = .ok (.jnull, r) := by
  simp only [parseValue]

theorem parseValue_true (f : Nat) (r : List Char) :
    parseValue (f + 1) ('t' :: 'r' :: 'u' :: 'e' :: r) = .ok (.jbool true, r) := by
  simp only [parseValue]

theorem parseValue_false (f : Nat) (r : List Char) :
    parseValue (f + 1) ('f' :: 'a' :: 'l' :: 's' :: 'e' :: r) = .ok (.jbool false, r) := by
  simp only [parseValue]

theorem parseValue_string (f : Nat) (r : List Char) :
    parseValue (f + 1) ('"' :: r) =
      (parseStringRest r).map (fun p => (.jstr p.1, p.2)) := by
  simp only [parseValue]

theorem parseValue_arr (f : Nat) (r : List Char) :
    parseValue (f + 1) ('[' :: r) =
      match skipWs r with
      | ']' :: r2 => .ok (.jarr [], r2)
      | r2 => (parseItems f r2).map (fun p => (.jarr p.1, p.2)) := by
  simp only [parseValue]

theorem parseValue_obj (f : Nat) (r : List Char) :
    parseValue (f + 1) ('\x7b' :: r) =
      match skipWs r with
      | '\x7d' :: r2 => .ok (.jobj [], r2)
      | r2 => (parsePairs f r2).map (fun p => (.jobj (dictOfPairs p.1), p.2)) := by
  simp only [parseValue]

theorem parseValue_num (f : Nat) (c : Char) (r : List Char)
    (h1 : ¬ c = 'n') (h2 : ¬ c = 't') (h3 : ¬ c = 'f') (h4 : ¬ c = '"')
    (h5 : ¬ c = '[') (h6 : ¬ c = '\x7b') :
    parseValue (f + 1) (c :: r) =
      (parseNumber (c :: r)).map (fun p => (.jint p.1, p.2)) := by
  rw [parseValue.eq_def]
  split
  · omega
  · split
    · rename_i heq; injection heq with ha _; exact absurd ha h1
    · rename_i heq; injection heq with ha _; exact absurd ha h2
    · rename_i heq; injection heq with ha _; exact absurd ha h3
    · rename_i heq; injection heq with ha _; exact absurd ha h4
    · rename_i heq; injection heq with ha _; exact absurd ha h5
    · rename_i heq; injection heq with ha _; exact absurd ha h6
    · rfl

theorem jsonDumpsObj_head (k : List Char) (v : JVal) (kvs : List (List Char × JVal)) :
    ∃ t2, jsonDumpsObj ((k, v) :: kvs) = '"' :: t2 := by
  cases kvs with
  | nil =>
      exact ⟨(escString k ++ ['"']) ++ (':' :: jsonDumps v), by
        simp [jsonDumpsObj, dumpString]⟩
  | cons kw kws =>
      exact ⟨(escString k ++ ['"']) ++
          (':' :: (jsonDumps v ++ (',' :: jsonDumpsObj (kw :: kws)))), by
        simp [jsonDumpsObj, dumpString]⟩

theorem parseItems_ok_close (f : Nat) (s : List Char) (v : JVal) (r2 : List Char)
    (h : parseValue f s = .ok (v, ']' :: r2)) :
    parseItems (f + 1) s = .ok ([v], r2) := by
  have h1 : skipWs (']' :: r2) = ']' :: r2 := skipWs_cons (by decide)
  simp only [parseItems, h, h1]

theorem parseItems_ok_comma (f : Nat) (s : List Char) (v : JVal) (r2 : List Char)
    (h : parseValue f s = .ok (v, ',' :: r2)) :
    parseItems (f + 1) s =
      match parseItems f (skipWs r2) with
      | .error e => .error e
      | .ok (vs, r3) => .ok (v :: vs, r3) := by
  have h1 : skipWs (',' :: r2) = ',' :: r2 := skipWs_cons (by decide)
  simp only [parseItems, h, h1]

theorem parsePairs_last (f : Nat) (r k r2 : List Char) (v : JVal) (r4 : List Char)
    (hk : parseStringRest r = .ok (k, ':' :: r2))
    (hv : parseValue f (skipWs r2) = .ok (v, '\x7d' :: r4)) :
    parsePairs (f + 1) ('"' :: r) = .ok ([(k, v)], r4) := by
  have h1 : skipWs (':' :: r2) = ':' :: r2 := skipWs_cons (by decide)
  have h2 : skipWs ('\x7d' :: r4) = '\x7d' :: r4 := skipWs_cons (by decide)
  simp only [parsePairs, hk, h1, hv, h2]

theorem parsePairs_comma (f : Nat) (r k r2 : List Char) (v : JVal) (r4 : List Char)
    (hk : parseStringRest r = .ok (k, ':' :: r2))
    (hv : parseValue f (skipWs r2) = .ok (v, ',' :: r4)) :
    parsePairs (f + 1) ('"' :: r) =
      match parsePairs f (skipWs r4) with
      | .error e => .error e
      | .ok (kvs, r5) => .ok ((k, v) :: kvs, r5) := by
  have h1 : skipWs (':' :: r2) = ':' :: r2 := skipWs_cons (by decide)
  have h2 : skipWs (',' :: r4) = ',' :: r4 := skipWs_cons (by decide)
  simp only [parsePairs, hk, h1, hv, h2]

theorem json_rt_aux : ∀ fuel : Nat,
    (∀ v rest, jwf v = true → RestOk rest → jsize v ≤ fuel →
      parseValue fuel (jsonDumps v ++ rest) = .ok (v, rest)) ∧
    (∀ x xs rest, jwfArr (x :: xs) = true → jsizeArr (x :: xs) ≤ fuel →
      parseItems fuel (jsonDumpsArr (x :: xs) ++ (']' :: rest)) = .ok (x :: xs, rest)) ∧
    (∀ k v kvs rest, jwfObj ((k, v) :: kvs) = true → jsizeObj ((k, v) :: kvs) ≤ fuel →
      parsePairs fuel (jsonDumpsObj ((k, v) :: kvs) ++ ('\x7d' :: rest)) =
        .ok ((k, v) :: kvs, rest)) := by
  intro fuel
  induction fuel with
  | zero =>
      refine ⟨?_, ?_, ?_⟩
      · intro v rest _ _ hsz
        have := jsize_pos v
        omega
      · intro x xs rest _ hsz
        simp only [jsizeArr] at hsz
        omega
      · intro k v kvs rest _ hsz
        simp only [jsizeObj] at hsz
        omega
  | succ f ih =>
      obtain ⟨ihV, ihI, ihP⟩ := ih
      refine ⟨?_, ?_, ?_⟩
      · intro v rest hwf hrest hsz
        cases v with
        | jnull =>
            rw [show jsonDumps .jnull = ['n', 'u', 'l', 'l'] from by simp [jsonDumps]]
            exact parseValue_null f rest
        | jbool b =>
            cases b with
            | true =>
                rw [show jsonDumps (.jbool true) = ['t', 'r', 'u', 'e'] from by
                  simp [jsonDumps]]
                exact parseValue_true f rest
            | false =>
                rw [show jsonDumps (.jbool false) = ['f', 'a', 'l', 's', 'e'] from by
                  simp [jsonDumps]]
                exact parseValue_false f rest
        | jint n =>
            obtain ⟨c, t, hct, hc⟩ := intDumps_head n
            have hd : jsonDumps (.jint n) = c :: t := by simp [jsonDumps, hct]
            have hnum : parseValue (f + 1) (c :: (t ++ rest)) =
                (parseNumber (c :: (t ++ rest))).map (fun p => (.jint p.1, p.2)) := by
              rcases hc with h | h
              · subst h
                exact parseValue_num f '-' _ (by decide) (by decide) (by decide)
                  (by decide) (by decide) (by decide)
              · exact parseValue_num f c _ (isDigit_ne h (by decide))
                  (isDigit_ne h (by decide)) (isDigit_ne h (by decide))
                  (isDigit_ne h (by decide)) (isDigit_ne h (by decide))
                  (isDigit_ne h (by decide))
            rw [hd, List.cons_append, hnum, ← List.cons_append, ← hct,
              parseNumber_intDumps hrest]
            rfl
        | jstr s =>
            have hd : jsonDumps (.jstr s) ++ rest =
                '"' :: (escString s ++ ('"' :: rest)) := by
              simp [jsonDumps, dumpString]
            rw [hd, parseValue_string, parseStringRest_escString]
            rfl
        | jarr xs =>
            cases xs with
            | nil =>
                have hd : jsonDumps (.jarr []) ++ rest = '[' :: (']' :: rest) := by
                  simp [jsonDumps, jsonDumpsArr]
                rw [hd, parseValue_arr, skipWs_cons (by decide)]
                rfl
            | cons x xs' =>
                simp only [jwf] at hwf
                simp only [jsize] at hsz
                have hd : jsonDumps (.jarr (x :: xs')) ++ rest =
                    '[' :: (jsonDumpsArr (x :: xs') ++ (']' :: rest)) := by
                  simp [jsonDumps, List.append_assoc]
                rw [hd, parseValue_arr]
                obtain ⟨c, t, hct, hws, hbr, _⟩ := jsonDumpsArr_head x xs'
                have hsk : skipWs (jsonDumpsArr (x :: xs') ++ (']' :: rest)) =
                    jsonDumpsArr (x :: xs') ++ (']' :: rest) := by
                  rw [hct, List.cons_append, skipWs_cons hws]
                rw [hsk]
                split
                · rename_i r2 heq
                  rw [hct, List.cons_append] at heq
                  injection heq with ha _
                  exact absurd ha hbr
                · rw [ihI x xs' rest hwf (by omega)]
                  rfl
        | jobj kvs =>
            cases kvs with
            | nil =>
                have hd : jsonDumps (.jobj []) ++ rest = '\x7b' :: ('\x7d' :: rest) := by
                  simp [jsonDumps, jsonDumpsObj]
                rw [hd, parseValue_obj, skipWs_cons (by decide)]
                rfl
            | cons kv kvs' =>
                obtain ⟨k, v⟩ := kv
                simp only [jwf, Bool.and_eq_true, decide_eq_true_eq] at hwf
                simp only [jsize] at hsz
                have hd : jsonDumps (.jobj ((k, v) :: kvs')) ++ rest =
                    '\x7b' :: (jsonDumpsObj ((k, v) :: kvs') ++ ('\x7d' :: rest)) := by
                  simp [jsonDumps, List.append_assoc]
                rw [hd, parseValue_obj]
                obtain ⟨t2, ht2⟩ := jsonDumpsObj_head k v kvs'
                have hsk : skipWs (jsonDumpsObj ((k, v) :: kvs') ++ ('\x7d' :: rest)) =
                    jsonDumpsObj ((k, v) :: kvs') ++ ('\x7d' :: rest) := by
                  rw [ht2, List.cons_append, skipWs_cons (by decide)]
                rw [hsk]
                split
                · rename_i r2 heq
                  rw [ht2, List.cons_append] at heq
                  injection heq with ha _
                  exact absurd ha (by decide)
                · rw [ihP k v kvs' rest hwf.2 (by omega)]
                  show Except.ok (JVal.jobj (dictOfPairs ((k, v) :: kvs')), rest) = _
                  rw [dictOfPairs_eq_self hwf.1]
      · intro x xs rest hwf hsz
        simp only [jwfArr, Bool.and_eq_true] at hwf
        simp only [jsizeArr] at hsz
        cases xs with
        | nil =>
            rw [show jsonDumpsArr [x] ++ (']' :: rest) = jsonDumps x ++ (']' :: rest)
              from by simp [jsonDumpsArr]]
            exact parseItems_ok_close f _ x rest
              (ihV x (']' :: rest) hwf.1 (by simp [RestOk]) (by omega))
        | cons w xs' =>
            have hrw : jsonDumpsArr (x :: w :: xs') ++ (']' :: rest) =
                jsonDumps x ++ (',' :: (jsonDumpsArr (w :: xs') ++ (']' :: rest))) := by
              simp [jsonDumpsArr, List.append_assoc]
            have h1 : parseValue f
                (jsonDumps x ++ (',' :: (jsonDumpsArr (w :: xs') ++ (']' :: rest)))) =
                .ok (x, ',' :: (jsonDumpsArr (w :: xs') ++ (']' :: rest))) :=
              ihV x _ hwf.1 (by simp [RestOk]) (by omega)
            have hsk : skipWs (jsonDumpsArr (w :: xs') ++ (']' :: rest)) =
                jsonDumpsArr (w :: xs') ++ (']' :: rest) := by
              obtain ⟨c, t, hct, hws, _, _⟩ := jsonDumpsArr_head w xs'
              rw [hct, List.cons_append, skipWs_cons hws]
            rw [hrw, parseItems_ok_comma f _ x _ h1, hsk,
              ihI w xs' rest hwf.2 (by omega)]
      · intro k v kvs rest hwf hsz
        simp only [jwfObj, Bool.and_eq_true] at hwf
        simp only [jsizeObj] at hsz
        obtain ⟨c0, t0, hct0, hws0, _, _⟩ := jsonDumps_head v
        cases kvs with
        | nil =>
            have hrw : jsonDumpsObj [(k, v)] ++ ('\x7d' :: rest) =
                '"' :: (escString k ++
                  ('"' :: (':' :: (jsonDumps v ++ ('\x7d' :: rest))))) := by
              simp [jsonDumpsObj, dumpString, List.append_assoc]
            have hk : parseStringRest
                (escString k ++ ('"' :: (':' :: (jsonDumps v ++ ('\x7d' :: rest))))) =
                .ok (k, ':' :: (jsonDumps v ++ ('\x7d' :: rest))) :=
              parseStringRest_escString k _
            have hskv : skipWs (jsonDumps v ++ ('\x7d' :: rest)) =
                jsonDumps v ++ ('\x7d' :: rest) := by
              rw [hct0, List.cons_append, skipWs_cons hws0]
            have hv : parseValue f (skipWs (jsonDumps v ++ ('\x7d' :: rest))) =
                .ok (v, '\x7d' :: rest) := by
              rw [hskv]
              exact ihV v _ hwf.1 (by simp [RestOk]) (by omega)
            rw [hrw]
            exact parsePairs_last f _ k _ v rest hk hv
        | cons kw kws =>
            obtain ⟨k2, v2⟩ := kw
            have hrw : jsonDumpsObj ((k, v) :: (k2, v2) :: kws) ++ ('\x7d' :: rest) =
                '"' :: (escString k ++ ('"' :: (':' :: (jsonDumps v ++
                  (',' :: (jsonDumpsObj ((k2, v2) :: kws) ++ ('\x7d' :: rest))))))) := by
              simp [jsonDumpsObj, dumpString, List.append_assoc]
            have hk : parseStringRest (escString k ++ ('"' :: (':' :: (jsonDumps v ++
                (',' :: (jsonDumpsObj ((k2, v2) :: kws) ++ ('\x7d' :: rest))))))) =
                .ok (k, ':' :: (jsonDumps v ++
                  (',' :: (jsonDumpsObj ((k2, v2) :: kws) ++ ('\x7d' :: rest))))) :=
              parseStringRest_escString k _
            have hskv : skipWs (jsonDumps v ++
                (',' :: (jsonDumpsObj ((k2, v2) :: kws) ++ ('\x7d' :: rest)))) =
                jsonDumps v ++
                  (',' :: (jsonDumpsObj ((k2, v2) :: kws) ++ ('\x7d' :: rest))) := by
              rw [hct0, List.cons_append, skipWs_cons hws0]
            have hv : parseValue f (skipWs (jsonDumps v ++
                (',' :: (jsonDumpsObj ((k2, v2) :: kws) ++ ('\x7d' :: rest))))) =
                .ok (v, ',' :: (jsonDumpsObj ((k2, v2) :: kws) ++ ('\x7d' :: rest))) := by
              rw [hskv]
              exact ihV v _ hwf.1 (by simp [RestOk]) (by omega)
            have hsk2 : skipWs (jsonDumpsObj ((k2, v2) :: kws) ++ ('\x7d' :: rest)) =
                jsonDumpsObj ((k2, v2) :: kws) ++ ('\x7d' :: rest) := by
              obtain ⟨t3, ht3⟩ := jsonDumpsObj_head k2 v2 kws
              rw [ht3, List.cons_append, skipWs_cons (by decide)]
            rw [hrw, parsePairs_comma f _ k _ v _ hk hv, hsk2,
              ihP k2 v2 kws rest hwf.2 (by omega)]

theorem jsize_le_jsizeArr {x : JVal} : ∀ {xs : List JVal}, x ∈ xs → jsize x ≤ jsizeArr xs := by
  intro xs
  induction xs with
  | nil => intro h; cases h
  | cons w t ih =>
      intro h
      simp only [jsizeArr]
      rcases List.mem_cons.mp h with h | h
      · subst h; omega
      · have := ih h; omega

theorem jsize_le_jsizeObj {kv : List Char × JVal} :
    ∀ {kvs : List (List Char × JVal)}, kv ∈ kvs → jsize kv.2 ≤ jsizeObj kvs := by
  intro kvs
  induction kvs with
  | nil => intro h; cases h
  | cons kw t ih =>
      intro h
      obtain ⟨k2, v2⟩ := kw
      simp only [jsizeObj]
      rcases List.mem_cons.mp h with h | h
      · subst h; simp; omega
      · have := ih h; omega

theorem jsizeArr_le (xs : List JVal) (h : ∀ x ∈ xs, jsize x ≤ (jsonDumps x).length) :
    jsizeArr xs ≤ 1 + (jsonDumpsArr xs).length := by
  induction xs with
  | nil => simp [jsizeArr]
  | cons x t ih =>
      cases t with
      | nil =>
          simp only [jsizeArr, jsonDumpsArr]
          have := h x (by simp)
          omega
      | cons w t' =>
          have h2 : ∀ y ∈ w :: t', jsize y ≤ (jsonDumps y).length := by
            intro y hy
            exact h y (by simp [hy])
          have := ih h2
          have hx := h x (by simp)
          simp only [jsizeArr, jsonDumpsArr, List.length_append, List.length_cons] at this ⊢
          omega

theorem jsizeObj_le (kvs : List (List Char × JVal))
    (h : ∀ kv ∈ kvs, jsize kv.2 ≤ (jsonDumps kv.2).length) :
    jsizeObj kvs ≤ 1 + (jsonDumpsObj kvs).length := by
  induction kvs with
  | nil => simp [jsizeObj]
  | cons kv t ih =>
      obtain ⟨k, v⟩ := kv
      cases t with
      | nil =>
          simp only [jsizeObj, jsonDumpsObj, List.length_append, List.length_cons]
          have := h (k, v) (by simp)
          simp at this
          omega
      | cons kw t' =>
          have h2 : ∀ y ∈ kw :: t', jsize y.2 ≤ (jsonDumps y.2).length := by
            intro y hy
            exact h y (by simp [hy])
          have := ih h2
          have hx := h (k, v) (by simp)
          simp at hx
          simp only [jsizeObj, jsonDumpsObj, List.length_append, List.length_cons] at this ⊢
          omega

theorem jsize_le_dumps : ∀ v : JVal, jsize v ≤ (jsonDumps v).length := by
  have main : ∀ N v, jsize v ≤ N → jsize v ≤ (jsonDumps v).length := by
    intro N
    induction N with
    | zero =>
        intro v h
        have := jsize_pos v
        omega
    | succ n ih =>
        intro v hv
        cases v with
        | jnull => simp [jsize, jsonDumps]
        | jbool b => cases b <;> simp [jsize, jsonDumps]
        | jint m =>
            obtain ⟨c, t, hct, _⟩ := intDumps_head m
            simp [jsize, jsonDumps, hct]
        | jstr s => simp [jsize, jsonDumps, dumpString]
        | jarr xs =>
            simp only [jsize] at hv
            have hel : ∀ x ∈ xs, jsize x ≤ (jsonDumps x).length := by
              intro x hx
              apply ih
              have := jsize_le_jsizeArr hx
              omega
            have := jsizeArr_le xs hel
            simp only [jsize, jsonDumps, List.length_cons, List.length_append]
            omega
        | jobj kvs =>
            simp only [jsize] at hv
            have hel : ∀ kv ∈ kvs, jsize kv.2 ≤ (jsonDumps kv.2).length := by
              intro kv hkv
              apply ih
              have := jsize_le_jsizeObj hkv
              omega
            have := jsizeObj_le kvs hel
            simp only [jsize, jsonDumps, List.length_cons, List.length_append]
            omega
  intro v
  exact main (jsize v) v (le_refl _)

/-- Parsing the canonical serialization of a well-formed JSON value
recovers exactly that value: the `json.loads` model inverts the
conforming client serialization. -/
theorem jsonLoads_dumps {v : JVal} (h : jwf v = true) :
    jsonLoads (jsonDumps v) = .ok v := by
  unfold jsonLoads
  obtain ⟨c, t, hct, hws, _, _⟩ := jsonDumps_head v
  have hsk : skipWs (jsonDumps v) = jsonDumps v := by
    rw [hct]
    exact skipWs_cons hws
  have hfuel : jsize v ≤ (jsonDumps v).length + 2 := by
    have := jsize_le_dumps v
    omega
  have h1 : parseValue ((jsonDumps v).length + 2) (jsonDumps v) = .ok (v, []) := by
    have := (json_rt_aux ((jsonDumps v).length + 2)).1 v [] h (by simp [RestOk]) hfuel
    rwa [List.append_nil] at this
  rw [hsk, h1]
  rfl

/-! ### Query strings: percent-encoding, parse_qs, and the dispatcher -/

/-- Two lowercase hex digits of a byte. -/
def toHex2 (n : Nat) : List Char := [hexDigit (n / 16 % 16), hexDigit (n % 16)]

/-- Modelled from the spec: a conservative conforming percent-encoder
that escapes every byte of the value as `%xx` (an encoder may escape
more than the reserved set; every such output is decoded by
`urllib.parse.unquote`). -/
def pctEncode (b : Bytes) : List Char := (b.map (fun n => '%' :: toHex2 n)).flatten

/-- Modelled from the spec: the byte string denoted by a
percent-encoded text — each valid `%xx` escape contributes its byte,
an invalid escape leaves the `%` literal, and literal characters
contribute their UTF-8 bytes. -/
def pctDecodeBytes : List Char → Bytes
  | [] => []
  | '%' :: a :: b :: t =>
      match hexVal a, hexVal b with
      | some x, some y => (16 * x + y) :: pctDecodeBytes t
      | _, _ => '%'.toNat :: pctDecodeBytes (a :: b :: t)
  | c :: t => utf8EncodeChar c ++ pctDecodeBytes t

/-- Modelled from the spec: `urllib.parse.unquote`.  Escapes are decoded
as UTF-8; where the resulting bytes do not decode, Python substitutes
U+FFFD characters (`errors="replace"`) — the model collapses that case
to the single marker `['�']`, a case no claim exercises. -/
def unquote (s : List Char) : List Char :=
  match utf8Decode (pctDecodeBytes s) with
  | some t => t
  | none => ['�']

/-- Modelled from the spec: `urllib.parse.parse_qsl` with default
arguments — split the query on `&`, skip empty fields, skip fields
without `=` and fields with an empty value (blank values are not kept),
replace `+` by space and percent-decode name and value. -/
def parseQsl (q : List Char) : List (List Char × List Char) :=
  (pySplit q ['&']).foldr
    (fun field acc =>
      if field = [] then acc
      else
        match splitOnce field ['='] with
        | none => acc
        | some (n, v) =>
            if v = [] then acc
            else (unquote (pyReplace n ['+'] [' ']),
                  unquote (pyReplace v ['+'] [' '])) :: acc)
    []

/-- Modelled from the spec: `urllib.parse.parse_qs` — aggregate the
pair list of `parseQsl` into a dict from name to the list of values in
query order. -/
def parseQs (q : List Char) : List (List Char × List (List Char)) :=
  (parseQsl q).foldl
    (fun d kv =>
      match lookupD d kv.1 with
      | some vs => dictInsert d kv.1 (vs ++ [kv.2])
      | none => dictInsert d kv.1 [kv.2])
    []

/-- Invoke a stored route table entry; a raised handler failure
propagates out of the dispatcher as an exception value. -/
def runRoute (f : RouteFun) (args : List PyArg) : List Response × Except PyExc Unit :=
  match f args with
  | (sent, .ok ()) => (sent, .ok ())
  | (sent, .error msg) => (sent, .error (.handlerError msg))

/-- `MyHandler.do_GET` from `appserver.py`, over the path and query
components that `urlparse` returns.  Under the `/api/` route namespace:
an empty query invokes the stored route with zero extra arguments, and
otherwise `parse_qs` runs, the first `args` value is `json.loads`-ed and
the stored route is invoked with that one decoded value; a missing
`args` key raises `KeyError`, and the `routes[...]` lookup of an
unregistered path raises `KeyError` (nothing is sent first in either
case).  The two static-file branches (`/@api.js` and the
`SimpleHTTPRequestHandler` fallback), which no claim concerns, are the
abstract outcomes `apijs` and `static`. -/
def do_GET (table : List (List Char × RouteFun))
    (static apijs : List Response × Except PyExc Unit)
    (path query : List Char) : List Response × Except PyExc Unit :=
  if "/api/".toList.isPrefixOf path then
    if query = [] then
      match lookupD table path with
      | none => ([], .error (.keyError path))
      | some f => runRoute f []
    else
      match lookupD (parseQs query) "args".toList with
      | none => ([], .error (.keyError "args".toList))
      | some vals =>
          match vals with
          | [] => ([], .error .indexError)
          | a0 :: _ =>
              match jsonLoads a0 with
              | .error e => ([], .error e)
              | .ok v =>
                  match lookupD table path with
                  | none => ([], .error (.keyError path))
                  | some f => runRoute f [.json v]
  else if path = "/@api.js".toList ∧ query = [] then apijs
  else static

/-- The body-decoding section of `MyHandler.do_PUT`: exact content-type
match against `multipart/form-data` (then `decode_multipart`) or
`application/json` (then `content.decode("utf-8")` and `json.loads`);
any other content type leaves the local `data` unbound, so the later
`routes[...](self, data)` raises `UnboundLocalError`. -/
def decodePutBody (contentType : Option (List Char)) (body : Bytes) :
    Except PyExc PyArg :=
  if contentType = some "multipart/form-data".toList then
    (decode_multipart body).map .dict
  else if contentType = some "application/json".toList then
    match utf8Decode body with
    | none => .error .unicodeDecodeError
    | some s => (jsonLoads s).map .json
  else .error .unboundLocalError

/-- `MyHandler.do_PUT` from `appserver.py`, over the parsed path, the
`Content-Type` header and the body bytes already read from the request:
under `/api/` the body is decoded first — a decode failure propagates
with nothing sent — and only then is the route looked up and invoked
with the decoded value; outside `/api/` the method does nothing. -/
def do_PUT (table : List (List Char × RouteFun)) (path : List Char)
    (contentType : Option (List Char)) (body : Bytes) :
    List Response × Except PyExc Unit :=
  if "/api/".toList.isPrefixOf path then
    match decodePutBody contentType body with
    | .error e => ([], .error e)
    | .ok data =>
        match lookupD table path with
        | none => ([], .error (.keyError path))
        | some f => runRoute f [data]
  else ([], .ok ())

theorem utf8EncodeChar_lt256 (c : Char) : ∀ x ∈ utf8EncodeChar c, x < 256 := by
  have hv : c.toNat < 0x110000 := by
    rcases char_toNat_valid c with h | h
    · omega
    · omega
  intro x hx
  simp only [utf8EncodeChar] at hx
  split at hx
  · simp at hx
    omega
  · split at hx
    · simp at hx
      rcases hx with h | h <;> omega
    · split at hx
      · simp at hx
        rcases hx with h | h | h <;> omega
      · simp at hx
        rcases hx with h | h | h | h <;> omega

theorem utf8Encode_lt256 (s : List Char) : ∀ x ∈ utf8Encode s, x < 256 := by
  intro x hx
  simp only [utf8Encode, List.mem_flatten, List.mem_map] at hx
  obtain ⟨l, ⟨c, _, hl⟩, hxl⟩ := hx
  exact utf8EncodeChar_lt256 c x (hl ▸ hxl)

theorem pctDecodeBytes_pctEncode : ∀ b : Bytes, (∀ x ∈ b, x < 256) →
    pctDecodeBytes (pctEncode b) = b := by
  intro b
  induction b with
  | nil => intro _; rfl
  | cons n t ih =>
      intro h
      have hn := h n (by simp)
      have h1 : hexVal (hexDigit (n / 16 % 16)) = some (n / 16 % 16) :=
        hexVal_hexDigit _ (Nat.mod_lt _ (by omega))
      have h2 : hexVal (hexDigit (n % 16)) = some (n % 16) :=
        hexVal_hexDigit _ (Nat.mod_lt _ (by omega))
      have hrw : pctEncode (n :: t) =
          '%' :: hexDigit (n / 16 % 16) :: hexDigit (n % 16) :: pctEncode t := by
        simp [pctEncode, toHex2]
      rw [hrw]
      simp only [pctDecodeBytes, h1, h2]
      rw [ih (fun x hx => h x (by simp [hx]))]
      congr 1
      omega

theorem hexDigit_ascii : ∀ n, n < 16 → (hexDigit n).toNat < 128 := by decide

theorem digitChar_ascii : ∀ n, n < 10 → (digitChar n).toNat < 128 := by decide

theorem natToDigits_ascii (n : Nat) : ∀ c ∈ natToDigits n, c.toNat < 128 := by
  induction n using Nat.strong_induction_on with
  | _ n ih =>
      rw [natToDigits]
      split
      · next h =>
          intro c hc
          simp at hc
          subst hc
          exact digitChar_ascii n h
      · next h =>
          intro c hc
          simp at hc
          rcases hc with hc | hc
          · exact ih (n / 10) (by omega) c hc
          · subst hc
            exact digitChar_ascii _ (Nat.mod_lt _ (by omega))

theorem toHex4_ascii (n : Nat) : ∀ c ∈ toHex4 n, c.toNat < 128 := by
  intro c hc
  simp [toHex4] at hc
  rcases hc with h | h | h | h <;>
    (subst h; exact hexDigit_ascii _ (Nat.mod_lt _ (by omega)))

theorem escapeChar_ascii (c : Char) : ∀ d ∈ escapeChar c, d.toNat < 128 := by
  intro d hd
  unfold escapeChar at hd
  split at hd
  · simp at hd
    rcases hd with h | h <;> (subst h; decide)
  · split at hd
    · simp at hd
      subst hd
      decide
    · split at hd
      · split at hd
        · simp at hd
          rcases hd with h | h | h
          · subst h; decide
          · subst h; decide
          · exact toHex4_ascii _ d h
        · rw [List.mem_append] at hd
          rcases hd with hd | hd <;>
          · simp at hd
            rcases hd with h | h | h
            · subst h; decide
            · subst h; decide
            · exact toHex4_ascii _ d h
      · next hlit =>
          simp at hd
          subst hd
          omega

theorem escString_ascii (s : List Char) : ∀ c ∈ escString s, c.toNat < 128 := by
  intro c hc
  simp only [escString, List.mem_flatten, List.mem_map] at hc
  obtain ⟨l, ⟨d, _, hl⟩, hcl⟩ := hc
  exact escapeChar_ascii d c (hl ▸ hcl)

theorem dumpString_ascii (s : List Char) : ∀ c ∈ dumpString s, c.toNat < 128 := by
  intro c hc
  simp [dumpString] at hc
  rcases hc with h | h | h
  · subst h; decide
  · exact escString_ascii s c h
  · subst h; decide

theorem intDumps_ascii (n : Int) : ∀ c ∈ intDumps n, c.toNat < 128 := by
  intro c hc
  unfold intDumps at hc
  split at hc
  · simp at hc
    rcases hc with h | h
    · subst h; decide
    · exact natToDigits_ascii _ c h
  · exact natToDigits_ascii _ c hc

theorem jsonDumpsArr_ascii (xs : List JVal)
    (h : ∀ x ∈ xs, ∀ c ∈ jsonDumps x, c.toNat < 128) :
    ∀ c ∈ jsonDumpsArr xs, c.toNat < 128 := by
  induction xs with
  | nil => intro c hc; simp [jsonDumpsArr] at hc
  | cons x t ih =>
      intro c hc
      cases t with
      | nil =>
          rw [show jsonDumpsArr [x] = jsonDumps x from by simp [jsonDumpsArr]] at hc
          exact h x (by simp) c hc
      | cons w t' =>
          rw [show jsonDumpsArr (x :: w :: t') =
              jsonDumps x ++ (',' :: jsonDumpsArr (w :: t')) from by
            simp [jsonDumpsArr]] at hc
          simp at hc
          rcases hc with hc | hc | hc
          · exact h x (by simp) c hc
          · subst hc; decide
          · exact ih (fun y hy => h y (by simp [hy])) c hc

theorem jsonDumpsObj_ascii (kvs : List (List Char × JVal))
    (h : ∀ kv ∈ kvs, ∀ c ∈ jsonDumps kv.2, c.toNat < 128) :
    ∀ c ∈ jsonDumpsObj kvs, c.toNat < 128 := by
  induction kvs with
  | nil => intro c hc; simp [jsonDumpsObj] at hc
  | cons kv t ih =>
      obtain ⟨k, v⟩ := kv
      intro c hc
      cases t with
      | nil =>
          rw [show jsonDumpsObj [(k, v)] = dumpString k ++ (':' :: jsonDumps v) from by
            simp [jsonDumpsObj]] at hc
          simp at hc
          rcases hc with hc | hc | hc
          · exact dumpString_ascii k c hc
          · subst hc; decide
          · exact h (k, v) (by simp) c hc
      | cons kw t' =>
          rw [show jsonDumpsObj ((k, v) :: kw :: t') = dumpString k ++
              (':' :: (jsonDumps v ++ (',' :: jsonDumpsObj (kw :: t')))) from by
            simp [jsonDumpsObj]] at hc
          simp at hc
          rcases hc with hc | hc | hc | hc | hc
          · exact dumpString_ascii k c hc
          · subst hc; decide
          · exact h (k, v) (by simp) c hc
          · subst hc; decide
          · exact ih (fun y hy => h y (by simp [hy])) c hc

theorem jsonDumps_ascii : ∀ v : JVal, ∀ c ∈ jsonDumps v, c.toNat < 128 := by
  have main : ∀ N v, jsize v ≤ N → ∀ c ∈ jsonDumps v, c.toNat < 128 := by
    intro N
    induction N with
    | zero =>
        intro v h
        have := jsize_pos v
        omega
    | succ n ih =>
        intro v hv c hc
        cases v with
        | jnull =>
            rw [show jsonDumps .jnull = ['n', 'u', 'l', 'l'] from by simp [jsonDumps]] at hc
            fin_cases hc <;> decide
        | jbool b =>
            cases b with
            | true =>
                rw [show jsonDumps (.jbool true) = ['t', 'r', 'u', 'e'] from by
                  simp [jsonDumps]] at hc
                fin_cases hc <;> decide
            | false =>
                rw [show jsonDumps (.jbool false) = ['f', 'a', 'l', 's', 'e'] from by
                  simp [jsonDumps]] at hc
                fin_cases hc <;> decide
        | jint m =>
            rw [show jsonDumps (.jint m) = intDumps m from by simp [jsonDumps]] at hc
            exact intDumps_ascii m c hc
        | jstr s =>
            rw [show jsonDumps (.jstr s) = dumpString s from by simp [jsonDumps]] at hc
            exact dumpString_ascii s c hc
        | jarr xs =>
            simp only [jsize] at hv
            rw [show jsonDumps (.jarr xs) = '[' :: (jsonDumpsArr xs ++ [']']) from by
              simp [jsonDumps]] at hc
            simp at hc
            rcases hc with h | h | h
            · subst h; decide
            · refine jsonDumpsArr_ascii xs ?_ c h
              intro x hx
              apply ih
              have := jsize_le_jsizeArr hx
              omega
            · subst h; decide
        | jobj kvs =>
            simp only [jsize] at hv
            rw [show jsonDumps (.jobj kvs) = '\x7b' :: (jsonDumpsObj kvs ++ ['\x7d']) from by
              simp [jsonDumps]] at hc
            simp at hc
            rcases hc with h | h | h
            · subst h; decide
            · refine jsonDumpsObj_ascii kvs ?_ c h
              intro kv hkv
              apply ih
              have := jsize_le_jsizeObj hkv
              omega
            · subst h; decide
  intro v
  exact main (jsize v) v (le_refl _)

theorem findSub_singleton_none {α : Type} [DecidableEq α] {s : List α} {a : α}
    (h : a ∉ s) : findSub s [a] = none := by
  apply findSub_eq_none
  intro p hp
  obtain ⟨t, ht⟩ := hp
  apply h
  apply List.drop_subset p
  rw [← ht]
  simp

theorem pyReplace_no_occ {s old new : List Char} (hold : old ≠ [])
    (h : findSub s old = none) : pyReplace s old new = s := by
  unfold pyReplace
  rw [pySplit_of_none h]
  simp [List.intercalate]

theorem pctEncode_chars (b : Bytes) :
    ∀ c ∈ pctEncode b, c = '%' ∨ (hexVal c).isSome = true := by
  intro c hc
  simp only [pctEncode, List.mem_flatten, List.mem_map] at hc
  obtain ⟨l, ⟨n, _, hl⟩, hcl⟩ := hc
  subst hl
  simp [toHex2] at hcl
  have hx : ∀ m, m < 16 → (hexVal (hexDigit m)).isSome = true := by decide
  rcases hcl with h | h | h
  · exact Or.inl h
  · subst h; exact Or.inr (hx _ (Nat.mod_lt _ (by omega)))
  · subst h; exact Or.inr (hx _ (Nat.mod_lt _ (by omega)))

theorem unquote_args : unquote "args".toList = "args".toList := by
  unfold unquote
  rw [show pctDecodeBytes "args".toList = utf8Encode "args".toList from rfl,
    utf8Decode_encode_ascii (by decide)]

theorem unquote_pctEncode_ascii {s : List Char} (h : ∀ c ∈ s, c.toNat < 128) :
    unquote (pctEncode (utf8Encode s)) = s := by
  unfold unquote
  rw [pctDecodeBytes_pctEncode _ (utf8Encode_lt256 s), utf8Decode_encode_ascii h]

theorem utf8EncodeChar_ne_nil (c : Char) : utf8EncodeChar c ≠ [] := by
  simp only [utf8EncodeChar]
  split
  · simp
  · split
    · simp
    · split
      · simp
      · simp

theorem pctEncode_utf8_ne_nil {s : List Char} (h : s ≠ []) :
    pctEncode (utf8Encode s) ≠ [] := by
  cases s with
  | nil => exact absurd rfl h
  | cons c t =>
      have h1 : utf8Encode (c :: t) = utf8EncodeChar c ++ utf8Encode t := by
        simp [utf8Encode]
      rw [h1]
      cases he : utf8EncodeChar c with
      | nil => exact absurd he (utf8EncodeChar_ne_nil c)
      | cons b bs => simp [pctEncode]

/-- The query string a conforming client sends for a GET with JSON
arguments: `args=<percent-encoded JSON serialization>`. -/
def argsQuery (v : JVal) : List Char :=
  "args=".toList ++ pctEncode (utf8Encode (jsonDumps v))

theorem jsonDumps_ne_nil (v : JVal) : jsonDumps v ≠ [] := by
  obtain ⟨c, t, hct, _⟩ := jsonDumps_head v
  rw [hct]
  simp

theorem parseQs_args (v : JVal) :
    parseQs (argsQuery v) = [("args".toList, [jsonDumps v])] := by
  have hval := pctEncode_chars (utf8Encode (jsonDumps v))
  have hamp : '&' ∉ argsQuery v := by
    intro hmem
    rw [argsQuery, List.mem_append] at hmem
    rcases hmem with h | h
    · exact absurd h (by decide)
    · rcases hval '&' h with h1 | h1
      · exact absurd h1 (by decide)
      · exact absurd h1 (by decide)
  have h1 : pySplit (argsQuery v) ['&'] = [argsQuery v] :=
    pySplit_of_none (findSub_singleton_none hamp)
  have hqne : ¬ argsQuery v = [] := by
    rw [argsQuery]
    simp
  have hfind : findSub (argsQuery v) ['='] = some 4 := by
    apply findSub_eq_some
    · exact ⟨pctEncode (utf8Encode (jsonDumps v)), rfl⟩
    · intro p hp hpre
      obtain ⟨t, ht⟩ := hpre
      interval_cases p <;> (injection ht with h2 _; exact absurd h2 (by decide))
  have hsp : splitOnce (argsQuery v) ['='] =
      some ("args".toList, pctEncode (utf8Encode (jsonDumps v))) := by
    unfold splitOnce
    rw [hfind]
    rfl
  have hvne : ¬ pctEncode (utf8Encode (jsonDumps v)) = [] :=
    pctEncode_utf8_ne_nil (jsonDumps_ne_nil v)
  have hplus_val : findSub (pctEncode (utf8Encode (jsonDumps v))) ['+'] = none := by
    apply findSub_singleton_none
    intro hmem
    rcases hval '+' hmem with h1 | h1
    · exact absurd h1 (by decide)
    · exact absurd h1 (by decide)
  have hrep_val : pyReplace (pctEncode (utf8Encode (jsonDumps v))) ['+'] [' '] =
      pctEncode (utf8Encode (jsonDumps v)) :=
    pyReplace_no_occ (by simp) hplus_val
  have hplus_args : findSub "args".toList ['+'] = none :=
    findSub_singleton_none (by decide)
  have hrep_args : pyReplace "args".toList ['+'] [' '] = "args".toList :=
    pyReplace_no_occ (by simp) hplus_args
  have hunq_val : unquote (pctEncode (utf8Encode (jsonDumps v))) = jsonDumps v :=
    unquote_pctEncode_ascii (jsonDumps_ascii v)
  have hql : parseQsl (argsQuery v) = [("args".toList, jsonDumps v)] := by
    unfold parseQsl
    rw [h1]
    simp only [List.foldr]
    rw [if_neg hqne]
    simp only [hsp]
    rw [if_neg hvne, hrep_args, hrep_val, unquote_args, hunq_val]
  unfold parseQs
  rw [hql]
  simp only [List.foldl]
  rfl

theorem pySplit_ne_nil {α : Type} [DecidableEq α] (s sep : List α) :
    pySplit s sep ≠ [] := by
  rw [pySplit]
  split
  · simp
  · split <;> simp

theorem findSub_api_underscore (t : List Char) :
    findSub ("api_".toList ++ t) ['_'] = some 3 := by
  apply findSub_eq_some
  · exact ⟨t, rfl⟩
  · intro p hp hpre
    obtain ⟨u, hu⟩ := hpre
    interval_cases p <;> (injection hu with h2 _; exact absurd h2 (by decide))

theorem routeName_api (t : List Char) :
    routeName ("api_".toList ++ t) = "/api/".toList ++ pyReplace t ['_'] ['/'] := by
  unfold routeName pyReplace
  rw [pySplit_of_some (by simp) (findSub_api_underscore t)]
  rw [show ("api_".toList ++ t).take 3 = "api".toList from rfl]
  rw [show ("api_".toList ++ t).drop (3 + List.length ['_']) = t from rfl]
  cases hL : pySplit t ['_'] with
  | nil => exact absurd hL (pySplit_ne_nil t ['_'])
  | cons a L' => simp [List.intercalate]

theorem lookupD_foldl_route_miss :
    ∀ (regs acc : List (List Char × RouteFun)) (p : List Char),
      (∀ nf ∈ regs, routeName nf.1 ≠ p) →
      lookupD (regs.foldl (fun tb nf => route tb nf.1 nf.2) acc) p = lookupD acc p := by
  intro regs
  induction regs with
  | nil => intro acc p _; rfl
  | cons nf t ih =>
      intro acc p h
      simp only [List.foldl]
      rw [ih _ p (fun x hx => h x (by simp [hx]))]
      unfold route
      exact lookupD_dictInsert_ne _ _ (fun he => h nf (by simp) he.symm)

theorem lookupD_buildRoutes_last (rs1 rs2 : List (List Char × RouteFun))
    (fname : List Char) (f : RouteFun)
    (h : ∀ nf ∈ rs2, routeName nf.1 ≠ routeName fname) :
    lookupD (buildRoutes (rs1 ++ (fname, f) :: rs2)) (routeName fname) =
      some (trycatch f) := by
  unfold buildRoutes
  rw [List.foldl_append]
  simp only [List.foldl]
  rw [lookupD_foldl_route_miss rs2 _ _ h]
  unfold route
  exact lookupD_dictInsert_self _ _ _

theorem isPrefixOf_append {α : Type} [DecidableEq α] (l r : List α) :
    l.isPrefixOf (l ++ r) = true := by
  induction l with
  | nil => simp [List.isPrefixOf]
  | cons a t ih => simp [List.isPrefixOf, ih]

/-- A handler body that succeeds silently (for witnesses). -/
def sampleRoute : RouteFun := fun _ => ([], .ok ())

/-- A handler body that raises with message `boom` (for witnesses). -/
def failingRoute : RouteFun := fun _ => ([], .error "boom".toList)

/-- C1: a registered handler that raises a failure when invoked through
the route table is wrapped by `trycatch`: exactly one response — status
404, content type `text/plain`, body the failure's message text — is
sent after the handler's own output, and the same failure is then
re-raised out of the dispatcher rather than swallowed. -/
theorem c1_handler_failure_404_then_reraise
    (table : List (List Char × RouteFun))
    (static apijs : List Response × Except PyExc Unit)
    (path : List Char) (f : RouteFun)
    (sent : List Response) (msg : List Char)
    (hpre : "/api/".toList.isPrefixOf path = true)
    (hlook : lookupD table path = some (trycatch f))
    (hf : f [] = (sent, .error msg)) :
    trycatch f [] =
      (sent ++ [respond 404 (some "text/plain".toList) (.text msg)], .error msg) ∧
    do_GET table static apijs path [] =
      (sent ++ [respond 404 (some "text/plain".toList) (.text msg)],
        .error (.handlerError msg)) := by
  have h1 : trycatch f [] =
      (sent ++ [respond 404 (some "text/plain".toList) (.text msg)], .error msg) := by
    unfold trycatch
    rw [hf]
  refine ⟨h1, ?_⟩
  unfold do_GET
  rw [if_pos hpre, if_pos rfl, hlook]
  show runRoute (trycatch f) [] = _
  unfold runRoute
  rw [h1]

theorem c1_witness :
    ("/api/".toList.isPrefixOf "/api/ping".toList = true) ∧
    (lookupD [("/api/ping".toList, trycatch failingRoute)] "/api/ping".toList =
      some (trycatch failingRoute)) ∧
    (failingRoute [] = ([], .error "boom".toList)) ∧
    (trycatch failingRoute [] =
      ([respond 404 (some "text/plain".toList) (.text "boom".toList)],
        .error "boom".toList) ∧
     do_GET [("/api/ping".toList, trycatch failingRoute)] ([], .ok ()) ([], .ok ())
        "/api/ping".toList [] =
      ([respond 404 (some "text/plain".toList) (.text "boom".toList)],
        .error (.handlerError "boom".toList))) :=
  ⟨by decide, by simp [lookupD], rfl,
    c1_handler_failure_404_then_reraise
      [("/api/ping".toList, trycatch failingRoute)] ([], .ok ()) ([], .ok ())
      "/api/ping".toList failingRoute [] "boom".toList
      (by decide) (by simp [lookupD]) rfl⟩

/-- C2: contrary to the spec, an unregistered path under the API
namespace does NOT produce a 404 response: the `routes[...]` dict lookup
raises `KeyError` with nothing having been sent, for GET (empty query)
and PUT (well-formed JSON body) alike — the connection's handling fails
with an uncaught exception and the client receives no response from the
handler code (the `# handle errors here` comment marks the missing
handling). -/
theorem c2_unregistered_api_path_uncaught_keyerror
    (table : List (List Char × RouteFun))
    (static apijs : List Response × Except PyExc Unit)
    (path : List Char)
    (hpre : "/api/".toList.isPrefixOf path = true)
    (hmiss : lookupD table path = none) :
    do_GET table static apijs path [] = ([], .error (.keyError path)) ∧
    do_PUT table path (some "application/json".toList) (utf8Encode "null".toList) =
      ([], .error (.keyError path)) := by
  constructor
  · unfold do_GET
    rw [if_pos hpre, if_pos rfl, hmiss]
  · unfold do_PUT
    rw [if_pos hpre]
    have hd : decodePutBody (some "application/json".toList)
        (utf8Encode "null".toList) = .ok (.json .jnull) := by
      unfold decodePutBody
      rw [if_neg (by decide), if_pos rfl, utf8Decode_encode_ascii (by decide)]
      show (jsonLoads "null".toList).map PyArg.json = .ok (.json .jnull)
      have hnull : jsonDumps JVal.jnull = "null".toList := by simp [jsonDumps]
      rw [← hnull, jsonLoads_dumps (by simp [jwf])]
      rfl
    rw [hd, hmiss]

theorem c2_witness :
    ("/api/".toList.isPrefixOf "/api/nosuch".toList = true) ∧
    (lookupD ([] : List (List Char × RouteFun)) "/api/nosuch".toList = none) ∧
    (do_GET [] ([], .ok ()) ([], .ok ()) "/api/nosuch".toList [] =
      ([], .error (.keyError "/api/nosuch".toList)) ∧
     do_PUT [] "/api/nosuch".toList (some "application/json".toList)
        (utf8Encode "null".toList) =
      ([], .error (.keyError "/api/nosuch".toList))) :=
  ⟨by decide, rfl,
    c2_unregistered_api_path_uncaught_keyerror [] ([], .ok ()) ([], .ok ())
      "/api/nosuch".toList (by decide) rfl⟩

/-- C4: a GET under the API namespace with an empty query invokes the
resolved handler with zero arguments; with a conforming
`args=<percent-encoded JSON>` query it invokes the handler with exactly
the one decoded JSON value (arbitrary nesting) as its single argument. -/
theorem c4_get_args_decoding
    (table : List (List Char × RouteFun))
    (static apijs : List Response × Except PyExc Unit)
    (path : List Char) (g : RouteFun) (v : JVal)
    (hpre : "/api/".toList.isPrefixOf path = true)
    (hlook : lookupD table path = some g)
    (hwf : jwf v = true) :
    do_GET table static apijs path [] = runRoute g [] ∧
    do_GET table static apijs path (argsQuery v) = runRoute g [.json v] := by
  have hqne : ¬ argsQuery v = [] := by
    rw [argsQuery]
    simp
  constructor
  · unfold do_GET
    rw [if_pos hpre, if_pos rfl, hlook]
  · unfold do_GET
    rw [if_pos hpre, if_neg hqne]
    have hlk : lookupD (parseQs (argsQuery v)) "args".toList = some [jsonDumps v] := by
      rw [parseQs_args v]
      simp [lookupD]
    simp only [hlk, jsonLoads_dumps hwf, hlook]

theorem c4_witness :
    ("/api/".toList.isPrefixOf "/api/ping".toList = true) ∧
    (lookupD [("/api/ping".toList, sampleRoute)] "/api/ping".toList =
      some sampleRoute) ∧
    (jwf (.jarr [.jobj [("k".toList, .jint 3)], .jstr "s".toList]) = true) ∧
    (do_GET [("/api/ping".toList, sampleRoute)] ([], .ok ()) ([], .ok ())
        "/api/ping".toList [] = runRoute sampleRoute [] ∧
     do_GET [("/api/ping".toList, sampleRoute)] ([], .ok ()) ([], .ok ())
        "/api/ping".toList
        (argsQuery (.jarr [.jobj [("k".toList, .jint 3)], .jstr "s".toList])) =
      runRoute sampleRoute
        [.json (.jarr [.jobj [("k".toList, .jint 3)], .jstr "s".toList])]) :=
  ⟨by decide, by simp [lookupD], by simp [jwf, jwfArr, jwfObj],
    c4_get_args_decoding [("/api/ping".toList, sampleRoute)] ([], .ok ()) ([], .ok ())
      "/api/ping".toList sampleRoute
      (.jarr [.jobj [("k".toList, .jint 3)], .jstr "s".toList])
      (by decide) (by simp [lookupD]) (by simp [jwf, jwfArr, jwfObj])⟩

/-- C7: a PUT under the API namespace whose body fails to decode fails
before the `trycatch` wrapping: whatever the route table holds, the
decode error propagates out of `do_PUT` with nothing sent — no 404 is
produced and no handler is ever invoked. -/
theorem c7_put_decode_failure_before_wrapper
    (table : List (List Char × RouteFun))
    (path : List Char) (contentType : Option (List Char)) (body : Bytes)
    (e : PyExc)
    (hpre : "/api/".toList.isPrefixOf path = true)
    (hfail : decodePutBody contentType body = .error e) :
    do_PUT table path contentType body = ([], .error e) := by
  unfold do_PUT
  rw [if_pos hpre, hfail]

theorem c7_witness :
    ("/api/".toList.isPrefixOf "/api/ping".toList = true) ∧
    (decodePutBody (some "application/json".toList) (utf8Encode ['x']) =
      .error .jsonDecodeError) ∧
    (do_PUT [("/api/ping".toList, trycatch failingRoute)] "/api/ping".toList
        (some "application/json".toList) (utf8Encode ['x']) =
      ([], .error .jsonDecodeError)) := by
  have hfail : decodePutBody (some "application/json".toList) (utf8Encode ['x']) =
      .error .jsonDecodeError := by
    unfold decodePutBody
    rw [if_neg (by decide), if_pos rfl, utf8Decode_encode_ascii (by decide)]
    show (jsonLoads ['x']).map PyArg.json = .error .jsonDecodeError
    have hjl : jsonLoads ['x'] = .error .jsonDecodeError := by
      unfold jsonLoads
      rw [show skipWs ['x'] = ['x'] from rfl]
      have hpv : parseValue (['x'].length + 2) ['x'] =
          (parseNumber ['x']).map (fun p => (.jint p.1, p.2)) :=
        parseValue_num 2 'x' [] (by decide) (by decide) (by decide) (by decide)
          (by decide) (by decide)
      rw [hpv]
      rfl
    rw [hjl]
    rfl
  exact ⟨by decide, hfail,
    c7_put_decode_failure_before_wrapper _ _ _ _ _ (by decide) hfail⟩

/-- C8: the route path of a registered function is derived
deterministically from its name — a leading `/` plus the name with every
`_` mapped to `/` — and, when no later registration derives the same
path, a GET request to exactly that derived path resolves to exactly
that handler (wrapped in `trycatch`) and invokes it; a later
registration deriving the same path silently replaces the earlier one in
the table (last wins). -/
theorem c8_route_derivation_and_dispatch
    (rs1 rs2 : List (List Char × RouteFun)) (t : List Char) (f : RouteFun)
    (static apijs : List Response × Except PyExc Unit)
    (hlast : ∀ nf ∈ rs2, routeName nf.1 ≠ routeName ("api_".toList ++ t)) :
    routeName ("api_".toList ++ t) = "/api/".toList ++ pyReplace t ['_'] ['/'] ∧
    lookupD (buildRoutes (rs1 ++ ("api_".toList ++ t, f) :: rs2))
      (routeName ("api_".toList ++ t)) = some (trycatch f) ∧
    do_GET (buildRoutes (rs1 ++ ("api_".toList ++ t, f) :: rs2)) static apijs
      (routeName ("api_".toList ++ t)) [] = runRoute (trycatch f) [] := by
  have h1 := routeName_api t
  have h2 := lookupD_buildRoutes_last rs1 rs2 ("api_".toList ++ t) f hlast
  refine ⟨h1, h2, ?_⟩
  unfold do_GET
  have hpre : "/api/".toList.isPrefixOf (routeName ("api_".toList ++ t)) = true := by
    rw [h1]
    exact isPrefixOf_append _ _
  rw [if_pos hpre, if_pos rfl, h2]

theorem c8_witness :
    (∀ nf ∈ ([] : List (List Char × RouteFun)),
      routeName nf.1 ≠ routeName ("api_".toList ++ "ping".toList)) ∧
    (routeName ("api_".toList ++ "ping".toList) =
      "/api/".toList ++ pyReplace "ping".toList ['_'] ['/'] ∧
     lookupD (buildRoutes ([] ++ ("api_".toList ++ "ping".toList, sampleRoute) :: []))
        (routeName ("api_".toList ++ "ping".toList)) = some (trycatch sampleRoute) ∧
     do_GET (buildRoutes ([] ++ ("api_".toList ++ "ping".toList, sampleRoute) :: []))
        ([], .ok ()) ([], .ok ()) (routeName ("api_".toList ++ "ping".toList)) [] =
      runRoute (trycatch sampleRoute) []) :=
  ⟨by simp,
    c8_route_derivation_and_dispatch [] [] "ping".toList sampleRoute
      ([], .ok ()) ([], .ok ()) (by simp)⟩
